import Mathlib

/-!
Shallow embedding of `utils/libcxx/graph.py`: the directed-graph data model
(`Node`, `DirectedGraph`), the DOT-subset text codec (`DotEmitter`, `DotReader`)
and the cycle-enumeration utility (`BFS` frontier + `CycleFinder`).

Modelling conventions, fixed once here:
* Python strings are `List Char` (`Str`).  Character classes (`\w`, `\s`,
  line breaks) are modelled for their ASCII behaviour, plus the Unicode
  line-break characters `str.splitlines` recognises.
* Python `set`s of nodes are insertion-ordered duplicate-free lists; `Node`
  equality and hashing in the source reduce to the `id` field, so sets and
  dictionaries keyed by nodes are keyed by id here.  A node's `edges` set
  stores destination nodes but every use in the source reads only their id,
  so edges are stored as id lists.
* Python `dict`s are insertion-ordered association lists; assignment
  overwrites in place (`dictInsert`), lookup returns the first hit.
* Code that can raise (failed `assert`, `KeyError`, `IndexError`, an
  explicit `abortParse`) is embedded in `Option`/`Except`, with an error
  value per distinct Python exception site.
* The module requires Python >= 3.8 (f-strings, the walrus operator), yet
  keeps three Python-2 idioms that no longer work there; they are embedded
  as the errors Python 3 actually raises.  `node.attributes.iteritems()`
  raises `AttributeError` for any nonempty attribute map
  (`DotEmitter.addNode`); `self.node_strings.keys()` followed by
  `.sort()` raises `AttributeError` on the `dict_keys` view in every call
  (`DotEmitter.emit`), so serialization never produces text; and
  `BFS.__nonzero__` is ignored — `BFS` defines neither `__bool__` nor
  `__len__` — so `while bfs:` always re-enters and the traversal dies on
  `pop_front`'s failed assert once the frontier empties (`cycleLoop`).
  Python-2 helper renderings such as `renderNode` and `sortStrs` are kept
  as pure text functions to build concrete parser inputs; the program's
  own serializer never reaches them.
* The regular expressions used by `DotReader` are deterministic on their
  inputs (each `+`-group is delimited by characters it cannot itself
  contain), so they are embedded as maximal-munch scanners.
-/

abbrev Str := List Char

/-- Decidable equality of `Except` results, for evaluating the model on
concrete inputs. -/
instance exceptDecEq {ε α : Type} [DecidableEq ε] [DecidableEq α] :
    DecidableEq (Except ε α) := fun x y =>
  match x, y with
  | .ok a, .ok b =>
    match decEq a b with
    | isTrue h => isTrue (by rw [h])
    | isFalse h => isFalse (by intro hx; cases hx; exact h rfl)
  | .error a, .error b =>
    match decEq a b with
    | isTrue h => isTrue (by rw [h])
    | isFalse h => isFalse (by intro hx; cases hx; exact h rfl)
  | .ok _, .error _ => isFalse (by intro hx; cases hx)
  | .error _, .ok _ => isFalse (by intro hx; cases hx)

/-- ASCII whitespace, the characters Python's `\s` and `str.strip` treat as
space in the ASCII range. -/
def isSpaceChar (c : Char) : Bool :=
  c = ' ' || c = '\t' || c = '\n' || c = '\r' || c = Char.ofNat 0x0b || c = Char.ofNat 0x0c

/-- Word characters, Python's `\w` restricted to ASCII. -/
def isWordChar (c : Char) : Bool :=
  c.isAlphanum || c = '_'

/-- The line-break characters recognised by Python's `str.splitlines`. -/
def isLineBreak (c : Char) : Bool :=
  c = '\n' || c = '\r' || c = Char.ofNat 0x0b || c = Char.ofNat 0x0c ||
  c = Char.ofNat 0x1c || c = Char.ofNat 0x1d || c = Char.ofNat 0x1e ||
  c = Char.ofNat 0x85 || c = Char.ofNat 0x2028 || c = Char.ofNat 0x2029

/-- Python `str.lstrip()`. -/
def lstrip (cs : Str) : Str := cs.dropWhile isSpaceChar

/-- Python `str.strip()`. -/
def strip (cs : Str) : Str := ((lstrip cs).reverse.dropWhile isSpaceChar).reverse

/-- Prepend a character to the first line of a split result. -/
def consLine (c : Char) : List Str → List Str
  | [] => [[c]]
  | l :: ls => (c :: l) :: ls

/-- Python `str.splitlines()`: split at every line break, `\r\n` counting as
one break, final line-break producing no trailing empty line. -/
def linesOf : Str → List Str
  | [] => []
  | [c] => if isLineBreak c then [[]] else [[c]]
  | c :: d :: cs =>
    if c = '\r' then
      if d = '\n' then [] :: linesOf cs
      else [] :: linesOf (d :: cs)
    else if isLineBreak c then [] :: linesOf (d :: cs)
    else consLine c (linesOf (d :: cs))

/-- Python `str.split(',')`. -/
def splitComma : Str → List Str
  | [] => [[]]
  | c :: cs =>
    if c = ',' then [] :: splitComma cs
    else
      match splitComma cs with
      | [] => [[c]]
      | p :: ps => (c :: p) :: ps

/-- Python `dict` assignment `d[k] = v`: overwrite in place if the key
exists, append otherwise. -/
def dictInsert {α : Type} (k : Str) (v : α) (d : List (Str × α)) : List (Str × α) :=
  if d.any (fun p => p.1 == k) then d.map (fun p => if p.1 == k then (k, v) else p)
  else d ++ [(k, v)]

/-- Python `dict` lookup `d[k]` (first entry with the key; `none` models
the `KeyError` case for the caller to handle). -/
def lookupStr {α : Type} (k : Str) (d : List (Str × α)) : Option α :=
  (d.find? (fun p => p.1 == k)).map Prod.snd

/-- A vertex: identity, attribute map, outgoing edge set (destination ids;
the Python set stores nodes but compares and uses them by id only). -/
structure Node where
  id : Str
  attributes : List (Str × Str)
  edges : List Str
deriving DecidableEq

/-- `Node.addEdge`: `self.edges.add(dest)` (set add, a no-op when an equal
element is present). -/
def Node.addEdge (n : Node) (dest : Str) : Node :=
  if n.edges.contains dest then n else { n with edges := n.edges ++ [dest] }

/-- The graph: optional name plus the node set (insertion-ordered). -/
structure DirectedGraph where
  name : Option Str
  nodes : List Node
deriving DecidableEq

def DirectedGraph.setName (g : DirectedGraph) (n : Str) : DirectedGraph :=
  { g with name := some n }

/-- `getNode`: first node equal to the given id (`Node.__eq__` against a
string compares the id), `None` when absent. -/
def DirectedGraph.getNode (g : DirectedGraph) (i : Str) : Option Node :=
  g.nodes.find? (fun s => s.id == i)

/-- `addNode`: `self.nodes.add(n)`.  A set add: when a node with an equal id
is already present the call silently leaves the set unchanged (the old
node, with its attributes and edges, is kept). -/
def DirectedGraph.addNode (g : DirectedGraph) (n : Node) : DirectedGraph :=
  if g.nodes.any (fun m => m.id == n.id) then g else { g with nodes := g.nodes ++ [n] }

/-- `addEdge`: resolve both endpoints, `assert` both are present (`none`
models the failed assertion), then add dst to src's edge set.  Endpoints are
taken as ids; the polymorphic id-or-node argument of the source reduces to
the id because node equality is id equality. -/
def DirectedGraph.addEdge (g : DirectedGraph) (i1 i2 : Str) : Option DirectedGraph :=
  match g.getNode i1, g.getNode i2 with
  | some n1, some n2 =>
    some { g with nodes := g.nodes.map (fun m => if m.id == n1.id then m.addEdge n2.id else m) }
  | _, _ => none

/-- `removeNode`: strip the node from every other node's edge set, then
remove it from the node set.  `none` models the `KeyError` of
`self.nodes.remove` when the node is absent. -/
def DirectedGraph.removeNode (g : DirectedGraph) (i : Str) : Option DirectedGraph :=
  match g.getNode i with
  | none => none
  | some n =>
    let stripped := g.nodes.map (fun m =>
      if m.id == n.id then m
      else { m with edges := m.edges.filter (fun e => !(e == n.id)) })
    some { g with nodes := stripped.filter (fun m => !(m.id == n.id)) }

/-- Failure modes of `getNodeByLabel`: a node without a `label` attribute
makes `s.attributes['label']` raise `KeyError`; a second match fails the
`assert found is None`. -/
inductive LookupError
  | keyError
  | assertionError
deriving DecidableEq

/-- Iteration of `getNodeByLabel` over the node list, threading `found`. -/
def getNodeByLabelGo (l : Str) : List Node → Option Node → Except LookupError (Option Node)
  | [], found => .ok found
  | s :: rest, found =>
    match lookupStr ("label".toList) s.attributes with
    | none => .error .keyError
    | some v =>
      if v = l then
        match found with
        | some _ => .error .assertionError
        | none => getNodeByLabelGo l rest (some s)
      else getNodeByLabelGo l rest found

/-- `getNodeByLabel`: the unique node whose `label` attribute equals `l`;
`ok none` when no node matches; errors as in `LookupError`. -/
def DirectedGraph.getNodeByLabel (g : DirectedGraph) (l : Str) : Except LookupError (Option Node) :=
  getNodeByLabelGo l g.nodes none

/-- Serializer state: graph name, rendered node statements keyed by id (a
Python dict, insertion-ordered), rendered edge statements. -/
structure DotEmitter where
  name : Option Str
  node_strings : List (Str × Str)
  edge_strings : List Str
deriving DecidableEq

/-- Python `sep.join(ls)`. -/
def joinSep (sep : Str) : List Str → Str
  | [] => []
  | [l] => l
  | l :: l₂ :: ls => l ++ sep ++ joinSep sep (l₂ :: ls)

/-- One rendered attribute `k="v"`, as the Python-2 era body of
`DotEmitter.addNode` was written to produce (dead under Python 3; kept as
a pure text helper for building concrete parser inputs). -/
def renderAttr (p : Str × Str) : Str :=
  p.1 ++ ("=\"".toList) ++ p.2 ++ ['"']

/-- The rendered attribute list `k1="v1", k2="v2"` of the same dead
rendering. -/
def renderAttrs (attrs : List (Str × Str)) : Str :=
  joinSep (", ".toList) (attrs.map renderAttr)

/-- The rendered node statement the Python-2 era `DotEmitter.addNode`
described: the id, then 0x5b-bracketed attributes when the map is
nonempty, then a semicolon.  Under Python 3 only the attribute-less bare
branch ever executes. -/
def renderNode (n : Node) : Str :=
  n.id ++ (if n.attributes.isEmpty then [] else
    (" [ ".toList) ++ renderAttrs n.attributes ++ (" ]".toList)) ++ [';']

/-- The rendered edge statement of `DotEmitter.addEdge`. -/
def edgeLine (a b : Str) : Str := a ++ (" -> ".toList) ++ b ++ [';']

/-- The failure modes of serialization under Python 3: `AttributeError`
from `node.attributes.iteritems()` (removed in Python 3) in
`DotEmitter.addNode`, `AttributeError` from calling `.sort()` on the
`dict_keys` view in `DotEmitter.emit`, and the duplicate-id `assert` of
`DotEmitter.addNode`. -/
inductive EmitError
  | iteritemsAttributeError
  | keysSortAttributeError
  | assertionError
deriving DecidableEq

/-- `DotEmitter.addNode` under Python 3: a node with a nonempty attribute
map hits `node.attributes.iteritems()` — removed in Python 3 — and raises
`AttributeError` before the duplicate-id assert is reached; a node with no
attributes renders as the bare `id;`, must pass `assert node.id not in
self.node_strings`, and is stored. -/
def DotEmitter.addNode (e : DotEmitter) (n : Node) : Except EmitError DotEmitter :=
  if n.attributes.isEmpty then
    if e.node_strings.any (fun p => p.1 == n.id) then .error .assertionError
    else .ok { e with node_strings := e.node_strings ++ [(n.id, n.id ++ [';'])] }
  else .error .iteritemsAttributeError

/-- `DotEmitter.addEdge` (uses only the two ids of the node arguments). -/
def DotEmitter.addEdge (e : DotEmitter) (a b : Str) : DotEmitter :=
  { e with edge_strings := e.edge_strings ++ [edgeLine a b] }

/-- `str.format` of the graph name: Python renders `None` as `None`. -/
def renderName : Option Str → Str
  | none => "None".toList
  | some s => s

/-- Lexicographic string order, the ordering the emitter's
`sorted_keys.sort()` intended (the call itself raises under Python 3). -/
def strLe (a b : Str) : Bool :=
  match a, b with
  | [], _ => true
  | _ :: _, [] => false
  | c :: a', d :: b' => if c = d then strLe a' b' else decide (c < d)

def insertSorted (x : Str) : List Str → List Str
  | [] => [x]
  | y :: ys => if strLe x y then x :: y :: ys else y :: insertSorted x ys

/-- Insertion sort by `strLe`, the sort `sorted_keys.sort()` intended. -/
def sortStrs : List Str → List Str
  | [] => []
  | x :: xs => insertSorted x (sortStrs xs)

/-- `DotEmitter.emit` under Python 3: the method begins with
`sorted_keys = self.node_strings.keys()` and `sorted_keys.sort()`; a
`dict_keys` view has no `.sort()`, so every call raises `AttributeError`
before any text is built.  The rest of the method is dead code. -/
def DotEmitter.emit (_ : DotEmitter) : Except EmitError Str :=
  .error .keysSortAttributeError

/-- The edge-emission inner loop of `DirectedGraph.toDot`. -/
def addEdgesAux (src : Str) : DotEmitter → List Str → DotEmitter
  | e, [] => e
  | e, d :: rest => addEdgesAux src (e.addEdge src d) rest

/-- The node loop of `DirectedGraph.toDot`: add each node statement, then
its outgoing edge statements; the first `AttributeError` or failed assert
aborts the loop. -/
def toDotAux : DotEmitter → List Node → Except EmitError DotEmitter
  | e, [] => .ok e
  | e, n :: rest =>
    match e.addNode n with
    | .error err => .error err
    | .ok e' => toDotAux (addEdgesAux n.id e' n.edges) rest

/-- `DirectedGraph.toDot`: feed every node and edge to a fresh emitter and
emit.  Under Python 3 this never produces text: a node with attributes
raises `AttributeError` in `addNode`, a duplicated node id fails the
emitter's assert, and otherwise `emit` raises `AttributeError` at
`dict_keys.sort`. -/
def DirectedGraph.toDot (g : DirectedGraph) : Except EmitError Str :=
  match toDotAux (DotEmitter.mk g.name [] []) g.nodes with
  | .error err => .error err
  | .ok e => e.emit

/-- One error value per distinct failure site of `DotReader.parse`. -/
inductive ParseError
  | indexError
  | failedIntroducer
  | badAttribute (chunk : Str)
  | assertionError
  | noClosingBrace
deriving DecidableEq

/-- Match a literal at the front of a string, returning the remainder. -/
def dropLit : Str → Str → Option Str
  | [], cs => some cs
  | _ :: _, [] => none
  | p :: ps, c :: cs => if c = p then dropLit ps cs else none

/-- The regex of `parseIntroducer`, returning the captured graph name:
optional leading space, the literal `digraph "`, a nonempty quote-free
name, the closing quote, whitespace, the opening brace, optional trailing
space. -/
def parseIntroducer (l : Str) : Option Str :=
  match dropLit ("digraph \"".toList) (lstrip l) with
  | none => none
  | some cs =>
    let nm := cs.takeWhile (fun c => !(c = '"'))
    let rest := cs.dropWhile (fun c => !(c = '"'))
    if nm.isEmpty then none
    else
      match rest with
      | '"' :: r1 =>
        match r1 with
        | c :: r2 =>
          if isSpaceChar c then
            match lstrip r2 with
            | '\x7b' :: r3 => if (lstrip r3).isEmpty then some nm else none
            | _ => none
          else none
        | [] => none
      | _ => none

/-- The regex of `parseNodeDefinition`, returning the id and the raw
bracketed attribute text: an id, whitespace, a nonempty bracket-free chunk
in square brackets, a semicolon. -/
def parseNodeDefinition (l : Str) : Option (Str × Str) :=
  let cs := lstrip l
  let id := cs.takeWhile isWordChar
  let r1 := cs.dropWhile isWordChar
  if id.isEmpty then none
  else
    match r1 with
    | c :: r2 =>
      if isSpaceChar c then
        match lstrip r2 with
        | '[' :: r3 =>
          let content := r3.takeWhile (fun c => !(c = ']'))
          let r4 := r3.dropWhile (fun c => !(c = ']'))
          if content.isEmpty then none
          else
            match r4 with
            | ']' :: r5 =>
              match lstrip r5 with
              | ';' :: r6 => if (lstrip r6).isEmpty then some (id, content) else none
              | _ => none
            | _ => none
        | _ => none
      else none
    | [] => none

/-- The regex of `parseEdgeDefinition`, returning the two ids: an id,
whitespace, an arrow, whitespace, an id, a semicolon. -/
def parseEdgeDefinition (l : Str) : Option (Str × Str) :=
  let cs := lstrip l
  let n1 := cs.takeWhile isWordChar
  let r1 := cs.dropWhile isWordChar
  if n1.isEmpty then none
  else
    match r1 with
    | c :: r2 =>
      if isSpaceChar c then
        match lstrip r2 with
        | '-' :: '>' :: r3 =>
          match r3 with
          | d :: r4 =>
            if isSpaceChar d then
              let n2 := (lstrip r4).takeWhile isWordChar
              let r5 := (lstrip r4).dropWhile isWordChar
              if n2.isEmpty then none
              else
                match r5 with
                | ';' :: r6 => if (lstrip r6).isEmpty then some (n1, n2) else none
                | _ => none
            else none
          | [] => none
        | _ => none
      else none
    | [] => none

/-- The attribute regex of `parseAttributes` (`re.match`: a prefix match,
trailing characters after the closing quote are ignored): a word key,
equals sign, a nonempty quote-free value in double quotes. -/
def matchAttribute (a : Str) : Option (Str × Str) :=
  let cs := lstrip a
  let k := cs.takeWhile isWordChar
  let r1 := cs.dropWhile isWordChar
  if k.isEmpty then none
  else
    match r1 with
    | '=' :: '"' :: r2 =>
      let v := r2.takeWhile (fun c => !(c = '"'))
      let r3 := r2.dropWhile (fun c => !(c = '"'))
      if v.isEmpty then none
      else
        match r3 with
        | '"' :: _ => some (k, v)
        | _ => none
    | _ => none

/-- The chunk loop of `parseAttributes`, folding the chunks into a dict;
a chunk the attribute regex rejects aborts the parse. -/
def parseAttrsAux : List (Str × Str) → List Str → Except ParseError (List (Str × Str))
  | d, [] => .ok d
  | d, a :: rest =>
    match matchAttribute a with
    | none => .error (.badAttribute a)
    | some kv => parseAttrsAux (dictInsert kv.1 kv.2 d) rest

/-- `parseAttributes`: split the raw text on commas, strip the chunks, drop
the blank ones, match each against the attribute regex. -/
def parseAttributes (raw : Str) : Except ParseError (List (Str × Str)) :=
  parseAttrsAux [] (((splitComma raw).map strip).filter (fun p => !p.isEmpty))

/-- The regex of `parseCloser`: a lone closing brace. -/
def parseCloser (l : Str) : Bool :=
  match lstrip l with
  | '\x7d' :: r => (lstrip r).isEmpty
  | _ => false

/-- The statement loop of `DotReader.parse`: try node statement, then edge
statement, apply the matched statement's effect and advance; at the first
line matching neither, demand the closer (running out of lines is the same
"no closing brace" abort).  Lines after the closer are ignored. -/
def parseBody : DirectedGraph → List Str → Except ParseError DirectedGraph
  | _, [] => .error .noClosingBrace
  | g, l :: rest =>
    match parseNodeDefinition l with
    | some ir =>
      match parseAttributes ir.2 with
      | .error e => .error e
      | .ok attrs => parseBody (g.addNode (Node.mk ir.1 attrs [])) rest
    | none =>
      match parseEdgeDefinition l with
      | some nn =>
        match g.addEdge nn.1 nn.2 with
        | some g' => parseBody g' rest
        | none => .error .assertionError
      | none => if parseCloser l then .ok g else .error .noClosingBrace

/-- The non-blank stripped lines of the input. -/
def parseLines (data : Str) : List Str :=
  ((linesOf data).map strip).filter (fun l => !l.isEmpty)

/-- `DotReader.parse`: split into non-blank stripped lines (`lines[0]` on an
empty list raises `IndexError`, before any parse-error message), demand the
introducer, scan statements, demand the closer. -/
def DotReader.parse (data : Str) : Except ParseError DirectedGraph :=
  match parseLines data with
  | [] => .error .indexError
  | l0 :: rest =>
    match parseIntroducer l0 with
    | none => .error .failedIntroducer
    | some nm => parseBody ((DirectedGraph.mk none []).setName nm) rest

/-- `DirectedGraph.fromDot`. -/
def DirectedGraph.fromDot (data : Str) : Except ParseError DirectedGraph :=
  DotReader.parse data

/-- State of `CycleFinder.findCycleForNode`: the `BFS` helper's visited set
(node ids) and FIFO frontier (node objects), the discovered-path dict and
the collected cycle witnesses (paths as id sequences). -/
structure CFState where
  visited : List Str
  to_visit : List Node
  all_paths : List (Str × List Str)
  all_cycles : List (List Str)
deriving DecidableEq

/-- The second half of the edge loop body: `if en == bfs.start:
all_cycles += [all_paths[n]]` (a missing path entry would raise
`KeyError`). -/
def cycleCheckStart (start cur : Str) (en : Node) (st₁ : CFState) : Option CFState :=
  if en.id == start then
    match lookupStr cur st₁.all_paths with
    | none => none
    | some p => some { st₁ with all_cycles := st₁.all_cycles ++ [p] }
  else some st₁

/-- One edge of the node currently being expanded: resolve it through the
graph (`none` models the fault the Python run incurs on an unresolvable
edge), push it if unseen recording its path, then record a cycle witness
when it points back to the start. -/
def cycleEdgeStep (g : DirectedGraph) (start cur : Str) (st : CFState) (e : Str) : Option CFState :=
  match g.getNode e with
  | none => none
  | some en =>
    if st.visited.contains en.id then cycleCheckStart start cur en st
    else
      match lookupStr cur st.all_paths with
      | none => none
      | some p =>
        cycleCheckStart start cur en
          { st with
            visited := st.visited ++ [en.id],
            to_visit := st.to_visit ++ [en],
            all_paths := dictInsert en.id (p ++ [en.id]) st.all_paths }

/-- The `for e in n.edges` loop. -/
def cycleEdgesAux (g : DirectedGraph) (start cur : Str) : CFState → List Str → Option CFState
  | st, [] => some st
  | st, e :: rest =>
    match cycleEdgeStep g start cur st e with
    | none => none
    | some st' => cycleEdgesAux g start cur st' rest

/-- The `while bfs:` loop under Python 3: `BFS.__nonzero__` is a Python-2
truth hook that Python 3 ignores, and `BFS` defines neither `__bool__` nor
`__len__`, so the guard is always true and the loop re-enters on an empty
frontier, where `pop_front`'s `assert len(self.to_visit)` fails.  The loop
therefore never exits normally: `some st` is the local state at that
`AssertionError` (Python discards the state with the exception; carrying
it keeps the crash site observable).  `none` models the remaining fault
paths (a popped node missing from the path dict, an unresolvable edge),
shown unreachable.  The fuel only totalises the recursion: every enqueued
node is freshly marked visited among the graph's node ids, so a run makes
at most one iteration per node (`cycleLoop_reaches`) and the fuel
`g.nodes.length + 1` supplied by `findCycleForNode` is never exhausted. -/
def cycleLoop (g : DirectedGraph) (start : Str) : Nat → CFState → Option CFState
  | 0, _ => none
  | fuel + 1, st =>
    match st.to_visit with
    | [] => some st
    | n :: rest =>
      match lookupStr n.id st.all_paths with
      | none => none
      | some _ =>
        match cycleEdgesAux g start n.id { st with to_visit := rest } n.edges with
        | none => none
        | some st' => cycleLoop g start fuel st'

/-- `CycleFinder.findCycleForNode`: `assert n in self.graph.nodes`
(membership by id), seed the frontier and path dict with the start node,
run the traversal.  Under Python 3 the function never returns its
`all_cycles` — that `return` is dead code: the run always ends in an
`AssertionError`, at the entry assert when the start node is absent
(folded into `none` here) or at `pop_front` once the frontier empties
(`some st`, the state at the failure). -/
def CycleFinder.findCycleForNode (g : DirectedGraph) (n : Node) : Option CFState :=
  if g.nodes.any (fun m => m.id == n.id) then
    cycleLoop g n.id (g.nodes.length + 1)
      (CFState.mk [n.id] [n] [(n.id, [n.id])] [])
  else none

/-- The per-node loop of `findCyclesInGraph`: the very first call into
`findCycleForNode` raises `AssertionError` (the `.error` value, carrying
the BFS state at the failed assert), which propagates out of the loop, so
the walrus-guarded accumulation is dead code; only an empty work list
reaches the normal return. -/
def findCyclesAux (g : DirectedGraph) :
    List (Node × List (List Str)) → List Node →
      Option (Except CFState (List (Node × List (List Str))))
  | acc, [] => some (.ok acc)
  | _, n :: _ =>
    match CycleFinder.findCycleForNode g n with
    | none => none
    | some st => some (.error st)

/-- `CycleFinder.findCyclesInGraph`. -/
def CycleFinder.findCyclesInGraph (g : DirectedGraph) :
    Option (Except CFState (List (Node × List (List Str)))) :=
  findCyclesAux g [] g.nodes

/-- Shortcut instance so that results of `findCyclesInGraph` can be
compared by `decide` (the nested search otherwise exceeds the default
instance-size limit). -/
instance cyclesListDecEq : DecidableEq (List (Node × List (List Str))) :=
  inferInstance

/-! ### Concrete graphs used to evaluate the claims -/

/-- Node `A` with the single edge `A -> B`. -/
def nodeA : Node := Node.mk ("A".toList) [] ["B".toList]

/-- Node `B` with the single edge `B -> C`. -/
def nodeB : Node := Node.mk ("B".toList) [] ["C".toList]

/-- Node `C` closing the three-cycle with `C -> A`. -/
def nodeCBack : Node := Node.mk ("C".toList) [] ["A".toList]

/-- Node `C` with no outgoing edges. -/
def nodeCEnd : Node := Node.mk ("C".toList) [] []

/-- The three-node cycle `A -> B -> C -> A`. -/
def gCyc : DirectedGraph := DirectedGraph.mk (some ("g".toList)) [nodeA, nodeB, nodeCBack]

/-- The acyclic chain `A -> B -> C`. -/
def gAcyc : DirectedGraph := DirectedGraph.mk (some ("g".toList)) [nodeA, nodeB, nodeCEnd]

/-- A single node with a self-loop. -/
def nodeSelf : Node := Node.mk ("s".toList) [] ["s".toList]

/-- The graph holding only `nodeSelf`. -/
def gSelf : DirectedGraph := DirectedGraph.mk none [nodeSelf]

/-- A named graph whose single node has an empty attribute map. -/
def gBare : DirectedGraph := DirectedGraph.mk (some ("g".toList)) [Node.mk ("a".toList) [] []]

/-- A graph holding one labelled node with id `a`. -/
def gDup : DirectedGraph :=
  DirectedGraph.mk none [Node.mk ("a".toList) [("label".toList, "A".toList)] []]

/-- A graph whose single node has no `label` attribute. -/
def gNoLabel : DirectedGraph := DirectedGraph.mk none [Node.mk ("a".toList) [] []]

/-- A graph with two distinct nodes sharing the label `X`. -/
def gLabelDup : DirectedGraph := DirectedGraph.mk none
  [Node.mk ("a".toList) [("label".toList, "X".toList)] [],
   Node.mk ("b".toList) [("label".toList, "X".toList)] []]

/-- A two-node graph with edges `a -> b`, `b -> a` and a self-loop `b -> b`. -/
def gRem : DirectedGraph := DirectedGraph.mk none
  [Node.mk ("a".toList) [] ["b".toList], Node.mk ("b".toList) [] ["a".toList, "b".toList]]

/-- The graph `gRem` after removing node `b`. -/
def gRemRes : DirectedGraph := DirectedGraph.mk none [Node.mk ("a".toList) [] []]

/-- Two isolated nodes `a`, `b`. -/
def gTwo : DirectedGraph :=
  DirectedGraph.mk none [Node.mk ("a".toList) [] [], Node.mk ("b".toList) [] []]

/-- `gTwo` with the edge `a -> b` added. -/
def gTwoAB : DirectedGraph :=
  DirectedGraph.mk none [Node.mk ("a".toList) [] ["b".toList], Node.mk ("b".toList) [] []]

/-! ### Generic helper lemmas -/

theorem word_not_space {c : Char} (h : isWordChar c = true) : isSpaceChar c = false := by
  by_contra hs
  have hs' : isSpaceChar c = true := by
    cases hx : isSpaceChar c
    · exact absurd hx hs
    · rfl
  simp only [isSpaceChar, Bool.or_eq_true, decide_eq_true_eq] at hs'
  rcases hs' with ((((h1 | h1) | h1) | h1) | h1) | h1 <;> subst h1 <;> simp [isWordChar] at h

theorem takeWhile_append_of_all (p : Char → Bool) (xs ys : Str) (h : ∀ c ∈ xs, p c = true) :
    (xs ++ ys).takeWhile p = xs ++ ys.takeWhile p := by
  induction xs with
  | nil => simp
  | cons c cs ih =>
    have hc : p c = true := h c (List.mem_cons_self c cs)
    simp only [List.cons_append, List.takeWhile_cons, hc, if_true]
    rw [ih (fun d hd => h d (List.mem_cons_of_mem c hd))]

theorem dropWhile_append_of_all (p : Char → Bool) (xs ys : Str) (h : ∀ c ∈ xs, p c = true) :
    (xs ++ ys).dropWhile p = ys.dropWhile p := by
  induction xs with
  | nil => simp
  | cons c cs ih =>
    have hc : p c = true := h c (List.mem_cons_self c cs)
    simp only [List.cons_append, List.dropWhile_cons, hc, if_true]
    exact ih (fun d hd => h d (List.mem_cons_of_mem c hd))

theorem takeWhile_cons_false (p : Char → Bool) (y : Char) (r : Str) (h : p y = false) :
    (y :: r).takeWhile p = [] := by
  simp [List.takeWhile_cons, h]

theorem dropWhile_cons_false (p : Char → Bool) (y : Char) (r : Str) (h : p y = false) :
    (y :: r).dropWhile p = y :: r := by
  simp [List.dropWhile_cons, h]

/-! ### C3: addNode on a duplicate id -/

/-- Amended C3: `addNode` performs a plain set add with no precondition
check: inserting a node whose id is already present is silently tolerated
and leaves the graph unchanged (the existing node, with its attributes and
edges, is kept). -/
theorem c3_addNode_silent_on_duplicate (g : DirectedGraph) (n : Node)
    (h : ∃ m ∈ g.nodes, m.id = n.id) : g.addNode n = g := by
  obtain ⟨m, hm, hid⟩ := h
  have hany : g.nodes.any (fun m => m.id == n.id) = true :=
    List.any_eq_true.mpr ⟨m, hm, by simp [hid]⟩
  simp [DirectedGraph.addNode, hany]

/-- Counterexample to C3 as stated: inserting a second node with id `a`
into a graph already holding one does not fail (the operation has no
failure outcome at all); it returns the graph unchanged, and the newly
offered node is not the one stored. -/
theorem c3_counterexample :
    gDup.addNode (Node.mk ("a".toList) [] []) = gDup ∧
    (Node.mk ("a".toList) [] []) ∉ gDup.nodes := by decide

/-- Witness for `c3_addNode_silent_on_duplicate` at a concrete input. -/
theorem c3_witness :
    gDup.addNode (Node.mk ("a".toList) [("x".toList, "y".toList)] []) = gDup :=
  c3_addNode_silent_on_duplicate gDup (Node.mk ("a".toList) [("x".toList, "y".toList)] [])
    ⟨Node.mk ("a".toList) [("label".toList, "A".toList)] [], by decide, by decide⟩

/-! ### C6: failing the introducer -/

/-- Amended C6: when the input has at least one non-blank line and its
first non-blank trimmed line does not match the introducer pattern,
parsing fails with the "failed to parse introducer" parse error and no
graph is returned.  (Input with no non-blank lines at all instead raises
`IndexError` at `lines[0]`, before any parse error is produced — see the
counterexample.) -/
theorem c6_bad_introducer_error (data l0 : Str) (rest : List Str)
    (h1 : parseLines data = l0 :: rest) (h2 : parseIntroducer l0 = none) :
    DotReader.parse data = .error .failedIntroducer := by
  have hstep : DotReader.parse data =
      (match parseIntroducer l0 with
       | none => Except.error ParseError.failedIntroducer
       | some nm => parseBody ((DirectedGraph.mk none []).setName nm) rest) := by
    unfold DotReader.parse
    rw [h1]
  rw [hstep, h2]

/-- Counterexample to C6 as stated: on input with no non-blank lines the
parser indexes an empty line list and raises `IndexError`, which is not
the "failed to parse introducer" parse error the claim requires. -/
theorem c6_counterexample :
    DotReader.parse [] = .error .indexError ∧
    ParseError.indexError ≠ ParseError.failedIntroducer := by decide

/-- Witness for `c6_bad_introducer_error` at a concrete input. -/
theorem c6_witness : DotReader.parse ("x".toList) = .error .failedIntroducer :=
  c6_bad_introducer_error ("x".toList) ("x".toList) [] (by decide) (by decide)

/-! ### C7: the three-node cycle -/

/-- The BFS state in which the traversal of `A -> B -> C -> A` started at
`A` fails `pop_front`'s assert: all three nodes visited, frontier empty,
the full three-node witness recorded but never returned. -/
def crashA : CFState :=
  CFState.mk ["A".toList, "B".toList, "C".toList] []
    [("A".toList, ["A".toList]), ("B".toList, ["A".toList, "B".toList]),
     ("C".toList, ["A".toList, "B".toList, "C".toList])]
    [["A".toList, "B".toList, "C".toList]]

/-- C7 (amended): on `A -> B -> C -> A` each start's traversal does build
exactly one witness containing all three ids in traversal order from that
start — but only in the local state at the `pop_front` assert failure:
`findCycleForNode` raises `AssertionError` (the carried state) instead of
returning the witness list. -/
theorem c7_three_cycle :
    CycleFinder.findCycleForNode gCyc nodeA = some crashA ∧
    CycleFinder.findCycleForNode gCyc nodeB = some
      (CFState.mk ["B".toList, "C".toList, "A".toList] []
        [("B".toList, ["B".toList]), ("C".toList, ["B".toList, "C".toList]),
         ("A".toList, ["B".toList, "C".toList, "A".toList])]
        [["B".toList, "C".toList, "A".toList]]) ∧
    CycleFinder.findCycleForNode gCyc nodeCBack = some
      (CFState.mk ["C".toList, "A".toList, "B".toList] []
        [("C".toList, ["C".toList]), ("A".toList, ["C".toList, "A".toList]),
         ("B".toList, ["C".toList, "A".toList, "B".toList])]
        [["C".toList, "A".toList, "B".toList]]) := by decide

/-- Counterexample to C7 as stated: running cycle detection over all nodes
of the three-cycle does not yield witness lists for `A`, `B` and `C` —
`findCyclesInGraph` propagates the `AssertionError` of its first start's
traversal (with the `A`-rooted witness still inside the discarded state)
and returns nothing. -/
theorem c7_counterexample :
    CycleFinder.findCyclesInGraph gCyc = some (Except.error crashA) := by decide

/-! ### C5: getNodeByLabel -/

/-- The predicate of `getNodeByLabel`: the node's `label` attribute equals
`l`. -/
def labelPred (l : Str) (n : Node) : Bool :=
  lookupStr ("label".toList) n.attributes == some l

/-- The nodes of `g` whose `label` attribute equals `l`. -/
def labelMatches (g : DirectedGraph) (l : Str) : List Node :=
  g.nodes.filter (labelPred l)

theorem filter_cons_pos {α : Type} {p : α → Bool} {s : α} (rest : List α) (h : p s = true) :
    (s :: rest).filter p = s :: rest.filter p := by
  simp [List.filter_cons, h]

theorem filter_cons_neg {α : Type} {p : α → Bool} {s : α} (rest : List α) (h : p s = false) :
    (s :: rest).filter p = rest.filter p := by
  simp [List.filter_cons, h]

theorem getNodeByLabelGo_found (l : Str) :
    ∀ (ns : List Node) (f : Node),
      (∀ n ∈ ns, (lookupStr ("label".toList) n.attributes).isSome) →
      ((ns.filter (labelPred l) = [] → getNodeByLabelGo l ns (some f) = .ok (some f)) ∧
       (ns.filter (labelPred l) ≠ [] →
          getNodeByLabelGo l ns (some f) = .error .assertionError)) := by
  intro ns
  induction ns with
  | nil => exact fun f _ => ⟨fun _ => rfl, fun h => absurd rfl h⟩
  | cons s rest ih =>
    intro f hlab
    obtain ⟨v, hv⟩ := Option.isSome_iff_exists.mp (hlab s (List.mem_cons_self s rest))
    have hrest : ∀ n ∈ rest, (lookupStr ("label".toList) n.attributes).isSome :=
      fun n hn => hlab n (List.mem_cons_of_mem s hn)
    by_cases hvl : v = l
    · have hpred : labelPred l s = true := by
        unfold labelPred; rw [hv, hvl]; simp
      constructor
      · intro hfil
        rw [filter_cons_pos _ hpred] at hfil
        cases hfil
      · intro _
        simp only [getNodeByLabelGo, hv]
        rw [if_pos hvl]
    · have hpred : labelPred l s = false := by
        unfold labelPred; rw [hv]; simp [hvl]
      rw [filter_cons_neg _ hpred]
      have hgo : getNodeByLabelGo l (s :: rest) (some f) = getNodeByLabelGo l rest (some f) := by
        simp only [getNodeByLabelGo, hv]
        rw [if_neg hvl]
      rw [hgo]
      exact ih f hrest

theorem getNodeByLabelGo_cases (l : Str) :
    ∀ ns : List Node,
      (∀ n ∈ ns, (lookupStr ("label".toList) n.attributes).isSome) →
      ((ns.filter (labelPred l) = [] → getNodeByLabelGo l ns none = .ok none) ∧
       (∀ m, ns.filter (labelPred l) = [m] → getNodeByLabelGo l ns none = .ok (some m)) ∧
       (2 ≤ (ns.filter (labelPred l)).length →
          getNodeByLabelGo l ns none = .error .assertionError)) := by
  intro ns
  induction ns with
  | nil =>
    intro _
    refine ⟨fun _ => rfl, ?_, ?_⟩
    · intro m hm
      simp at hm
    · intro hlen
      simp at hlen
  | cons s rest ih =>
    intro hlab
    obtain ⟨v, hv⟩ := Option.isSome_iff_exists.mp (hlab s (List.mem_cons_self s rest))
    have hrest : ∀ n ∈ rest, (lookupStr ("label".toList) n.attributes).isSome :=
      fun n hn => hlab n (List.mem_cons_of_mem s hn)
    by_cases hvl : v = l
    · have hpred : labelPred l s = true := by
        unfold labelPred; rw [hv, hvl]; simp
      have hgo : getNodeByLabelGo l (s :: rest) none = getNodeByLabelGo l rest (some s) := by
        simp only [getNodeByLabelGo, hv]
        rw [if_pos hvl]
      rw [filter_cons_pos _ hpred, hgo]
      refine ⟨?_, ?_, ?_⟩
      · intro hfil
        cases hfil
      · intro m hm
        injection hm with h1 h2
        subst h1
        exact (getNodeByLabelGo_found l rest s hrest).1 h2
      · intro hlen
        have hfil : rest.filter (labelPred l) ≠ [] := by
          intro hnil
          rw [hnil] at hlen
          simp at hlen
        exact (getNodeByLabelGo_found l rest s hrest).2 hfil
    · have hpred : labelPred l s = false := by
        unfold labelPred; rw [hv]; simp [hvl]
      have hgo : getNodeByLabelGo l (s :: rest) none = getNodeByLabelGo l rest none := by
        simp only [getNodeByLabelGo, hv]
        rw [if_neg hvl]
      rw [filter_cons_neg _ hpred, hgo]
      exact ih hrest

/-- Amended C5: provided every node of the graph carries a `label`
attribute, `getNodeByLabel l` returns the unique node labelled `l`, fails
with the ambiguity precondition violation when at least two nodes are
labelled `l`, and returns the explicit "not found" result (not an error)
when none is.  (A node without a `label` attribute instead makes the
lookup raise `KeyError` — see the counterexample.) -/
theorem c5_getNodeByLabel (g : DirectedGraph) (l : Str)
    (hlab : ∀ n ∈ g.nodes, (lookupStr ("label".toList) n.attributes).isSome) :
    (labelMatches g l = [] → g.getNodeByLabel l = .ok none) ∧
    (∀ m, labelMatches g l = [m] → g.getNodeByLabel l = .ok (some m)) ∧
    (2 ≤ (labelMatches g l).length → g.getNodeByLabel l = .error .assertionError) :=
  getNodeByLabelGo_cases l g.nodes hlab

/-- Counterexample to C5 as stated: in a graph whose only node lacks a
`label` attribute no node matches label `X`, yet `getNodeByLabel` does not
return the "not found" result; the attribute lookup raises `KeyError`. -/
theorem c5_counterexample :
    gNoLabel.getNodeByLabel ("X".toList) = .error .keyError ∧
    LookupError.keyError ≠ LookupError.assertionError := by decide

/-- Witness for `c5_getNodeByLabel` at a concrete input: two nodes share
label `X`, and the lookup fails with the ambiguity precondition violation. -/
theorem c5_witness :
    gLabelDup.getNodeByLabel ("X".toList) = .error .assertionError :=
  (c5_getNodeByLabel gLabelDup ("X".toList) (by decide)).2.2 (by decide)

/-! ### C8: removeNode leaves no dangling inbound edges -/

theorem getNode_eq_some {g : DirectedGraph} {i : Str} {n : Node}
    (h : g.getNode i = some n) : n.id = i ∧ n ∈ g.nodes := by
  unfold DirectedGraph.getNode at h
  exact ⟨by simpa using List.find?_some h, List.mem_of_find?_eq_some h⟩

/-- C8: after a successful `removeNode`, the removed id resolves to no
node, and no remaining node's edge set contains it (no dangling inbound
edges survive the removal). -/
theorem c8_removeNode_cascades (g : DirectedGraph) (i : Str) (g' : DirectedGraph)
    (h : g.removeNode i = some g') :
    g'.getNode i = none ∧ ∀ m ∈ g'.nodes, m.id ≠ i ∧ i ∉ m.edges := by
  unfold DirectedGraph.removeNode at h
  cases hn : g.getNode i with
  | none => rw [hn] at h; cases h
  | some n =>
    rw [hn] at h
    obtain ⟨hni, -⟩ := getNode_eq_some hn
    injection h with h'
    subst h'
    have hmain : ∀ m ∈ (g.nodes.map (fun m =>
        if m.id == n.id then m
        else { m with edges := m.edges.filter (fun e => !(e == n.id)) })).filter
        (fun m => !(m.id == n.id)), m.id ≠ i ∧ i ∉ m.edges := by
      intro m hm
      obtain ⟨hmap, hcond⟩ := List.mem_filter.mp hm
      have hmne : m.id ≠ n.id := by
        intro hx
        simp [hx] at hcond
      refine ⟨hni ▸ hmne, ?_⟩
      obtain ⟨x, hx, hfx⟩ := List.mem_map.mp hmap
      by_cases hxid : x.id = n.id
      · rw [if_pos (by simp [hxid])] at hfx
        exact absurd (hfx ▸ hxid) hmne
      · rw [if_neg (by simp [hxid])] at hfx
        intro hmem
        rw [← hfx] at hmem
        have := (List.mem_filter.mp hmem).2
        simp [hni] at this
    refine ⟨?_, hmain⟩
    unfold DirectedGraph.getNode
    rw [List.find?_eq_none]
    intro m hm
    have := (hmain m hm).1
    simp [this]

/-- Witness for `c8_removeNode_cascades` at a concrete input. -/
theorem c8_witness : gRemRes.getNode ("b".toList) = none :=
  (c8_removeNode_cascades gRem ("b".toList) gRemRes (by decide)).1

/-! ### C9: addEdge idempotence and endpoint checking -/

theorem Node.addEdge_id (n : Node) (d : Str) : (n.addEdge d).id = n.id := by
  unfold Node.addEdge
  split <;> rfl

theorem Node.mem_addEdge (n : Node) (d : Str) : d ∈ (n.addEdge d).edges := by
  unfold Node.addEdge
  split
  · next h => simpa using h
  · simp

theorem Node.addEdge_of_mem {n : Node} {d : Str} (h : d ∈ n.edges) : n.addEdge d = n := by
  unfold Node.addEdge
  rw [if_pos (by simpa using h)]

/-- The id-keyed search is invariant under maps that preserve ids. -/
theorem find?_id_map (f : Node → Node) (hf : ∀ m, (f m).id = m.id) (a : Str) :
    ∀ l : List Node,
      (l.map f).find? (fun m => m.id == a) = (l.find? (fun m => m.id == a)).map f := by
  intro l
  induction l with
  | nil => rfl
  | cons x xs ih =>
    simp only [List.map_cons, List.find?]
    rw [hf x]
    cases hx : (x.id == a)
    · simpa [hx] using ih
    · simp [hx]

theorem getNode_map (g : DirectedGraph) (f : Node → Node) (hf : ∀ m, (f m).id = m.id) (a : Str) :
    DirectedGraph.getNode { name := g.name, nodes := g.nodes.map f } a =
      (g.getNode a).map f := by
  unfold DirectedGraph.getNode
  exact find?_id_map f hf a g.nodes

theorem addEdge_some {g : DirectedGraph} {a b : Str} {n1 n2 : Node}
    (ha : g.getNode a = some n1) (hb : g.getNode b = some n2) :
    g.addEdge a b =
      some { g with nodes := g.nodes.map (fun m => if m.id == n1.id then m.addEdge n2.id else m) } := by
  unfold DirectedGraph.addEdge
  rw [ha, hb]

theorem map_id_of_mem {α : Type} (l : List α) (f : α → α) (h : ∀ x ∈ l, f x = x) :
    l.map f = l := by
  induction l with
  | nil => rfl
  | cons x xs ih =>
    rw [List.map_cons, h x (List.mem_cons_self x xs),
      ih (fun y hy => h y (List.mem_cons_of_mem x hy))]

/-- C9: a successful `addEdge a b` is idempotent (repeating it returns the
same graph, so in particular the source's edge set is unchanged), and
`addEdge` fails its precondition `assert` when either endpoint does not
resolve to a node of the graph. -/
theorem c9_addEdge_idempotent_and_checked :
    (∀ (g : DirectedGraph) (a b : Str) (g₁ : DirectedGraph),
        g.addEdge a b = some g₁ → g₁.addEdge a b = some g₁) ∧
    (∀ (g : DirectedGraph) (a b : Str),
        g.getNode a = none ∨ g.getNode b = none → g.addEdge a b = none) := by
  constructor
  · intro g a b g₁ h
    cases ha : g.getNode a with
    | none => unfold DirectedGraph.addEdge at h; rw [ha] at h; cases h
    | some n1 =>
      cases hb : g.getNode b with
      | none => unfold DirectedGraph.addEdge at h; rw [ha, hb] at h; cases h
      | some n2 =>
        rw [addEdge_some ha hb] at h
        injection h with h'
        obtain ⟨ha1, -⟩ := getNode_eq_some ha
        obtain ⟨hb1, -⟩ := getNode_eq_some hb
        have hfid : ∀ m : Node, ((fun m => if m.id == n1.id then m.addEdge n2.id else m) m).id
            = m.id := by
          intro m
          dsimp only
          by_cases hm : m.id = n1.id
          · rw [if_pos (by simp [hm])]
            exact Node.addEdge_id _ _
          · rw [if_neg (by simp [hm])]
        have hga' : DirectedGraph.getNode g₁ a = some (n1.addEdge n2.id) := by
          rw [← h']
          rw [getNode_map g _ hfid a, ha]
          dsimp only [Option.map]
          rw [if_pos (by simp)]
        have hgb' : ∃ n2', DirectedGraph.getNode g₁ b = some n2' ∧ n2'.id = n2.id := by
          refine ⟨_, ?_, hfid n2⟩
          rw [← h']
          rw [getNode_map g _ hfid b, hb]
          rfl
        obtain ⟨n2', hgb'', hn2'⟩ := hgb'
        rw [addEdge_some hga' hgb'']
        have hid1 : (n1.addEdge n2.id).id = n1.id := Node.addEdge_id _ _
        have hobj : ∀ x ∈ g₁.nodes,
            (if x.id == (n1.addEdge n2.id).id then x.addEdge n2'.id else x) = x := by
          intro x hx
          rw [← h'] at hx
          obtain ⟨y, hy, hfy⟩ := List.mem_map.mp hx
          rw [hid1, hn2']
          by_cases hyid : y.id = n1.id
          · have hfy' : x = y.addEdge n2.id := by
              rw [← hfy]
              rw [if_pos (by simp [hyid])]
            have hxid : x.id = n1.id := by rw [hfy', Node.addEdge_id, hyid]
            rw [if_pos (by simp [hxid])]
            rw [hfy', Node.addEdge_of_mem (Node.mem_addEdge y n2.id)]
          · have hfy' : x = y := by
              rw [← hfy, if_neg (by simp [hyid])]
            have hxid : x.id ≠ n1.id := by rw [hfy']; exact hyid
            rw [if_neg (by simp [hxid])]
        rw [map_id_of_mem g₁.nodes _ hobj]
  · intro g a b h
    unfold DirectedGraph.addEdge
    rcases h with h | h
    · rw [h]
    · rw [h]
      cases g.getNode a <;> rfl

/-- Witness for `c9_addEdge_idempotent_and_checked` at a concrete input:
adding the edge `a -> b` a second time returns the same graph, and an edge
to an absent id fails. -/
theorem c9_witness :
    gTwoAB.addEdge ("a".toList) ("b".toList) = some gTwoAB ∧
    gTwo.addEdge ("a".toList) ("zz".toList) = none :=
  ⟨c9_addEdge_idempotent_and_checked.1 gTwo ("a".toList) ("b".toList) gTwoAB (by decide),
   c9_addEdge_idempotent_and_checked.2 gTwo ("a".toList) ("zz".toList) (Or.inr (by decide))⟩

/-! ### C4: the bare node statement form -/

/-- Amended C4: a body line consisting of a bare identifier followed by a
semicolon — exactly what the emitter produces for a node with an empty
attribute map — is NOT accepted by the parser: it matches neither the node
statement pattern (which requires a bracketed attribute list) nor the edge
statement pattern, so such a line terminates statement scanning instead of
creating the node. -/
theorem c4_bare_node_line_rejected (id : Str) (h1 : id ≠ [])
    (h2 : ∀ c ∈ id, isWordChar c = true) :
    parseNodeDefinition (id ++ [';']) = none ∧ parseEdgeDefinition (id ++ [';']) = none := by
  obtain ⟨c0, id', rfl⟩ : ∃ c0 id', id = c0 :: id' := by
    cases id with
    | nil => exact absurd rfl h1
    | cons c0 id' => exact ⟨c0, id', rfl⟩
  have hc0w : isWordChar c0 = true := h2 c0 (List.mem_cons_self _ _)
  have hsemi_w : isWordChar ';' = false := by decide
  have hsemi_s : isSpaceChar ';' = false := by decide
  have hls : lstrip ((c0 :: id') ++ [';']) = (c0 :: id') ++ [';'] := by
    unfold lstrip
    exact dropWhile_cons_false _ _ _ (word_not_space hc0w)
  have htw : ((c0 :: id') ++ [';']).takeWhile isWordChar = c0 :: id' := by
    rw [takeWhile_append_of_all _ _ _ h2, takeWhile_cons_false _ _ _ hsemi_w]
    simp
  have hdw : ((c0 :: id') ++ [';']).dropWhile isWordChar = [';'] := by
    rw [dropWhile_append_of_all _ _ _ h2, dropWhile_cons_false _ _ _ hsemi_w]
  refine ⟨?_, ?_⟩
  · simp only [parseNodeDefinition, hls, htw, hdw, List.isEmpty_cons]
    simp [hsemi_s]
  · simp only [parseEdgeDefinition, hls, htw, hdw, List.isEmpty_cons]
    simp [hsemi_s]

/-- Counterexample to C4 as stated: the line `a;` matches neither statement
pattern, and a text containing it (the emitter's own output shape for an
attribute-less node) aborts with "no closing brace found" instead of
creating node `a`. -/
theorem c4_counterexample :
    parseNodeDefinition ("a;".toList) = none ∧
    parseEdgeDefinition ("a;".toList) = none ∧
    DotReader.parse ("digraph \"g\" \x7b\n  a;\n\x7d".toList) = .error .noClosingBrace := by
  decide

/-- Witness for `c4_bare_node_line_rejected` at a concrete input. -/
theorem c4_witness :
    parseNodeDefinition ("n1".toList ++ [';']) = none ∧
    parseEdgeDefinition ("n1".toList ++ [';']) = none :=
  c4_bare_node_line_rejected ("n1".toList) (by decide) (by decide)

/-! ### C10: dictionaries and the traversal invariants -/

theorem find?_append_none {α : Type} (p : α → Bool) :
    ∀ (l₁ l₂ : List α), l₁.find? p = none → (l₁ ++ l₂).find? p = l₂.find? p := by
  intro l₁
  induction l₁ with
  | nil => exact fun l₂ _ => rfl
  | cons x xs ih =>
    intro l₂ h
    simp only [List.find?] at h ⊢
    cases hx : p x
    · rw [hx] at h
      exact ih l₂ h
    · rw [hx] at h
      cases h

theorem find?_append_some {α : Type} (p : α → Bool) :
    ∀ (l₁ l₂ : List α) (a : α), l₁.find? p = some a → (l₁ ++ l₂).find? p = some a := by
  intro l₁
  induction l₁ with
  | nil => intro l₂ a h; cases h
  | cons x xs ih =>
    intro l₂ a h
    simp only [List.find?] at h ⊢
    cases hx : p x
    · rw [hx] at h
      exact ih l₂ a h
    · rw [hx] at h
      exact h

/-- A `dictInsert` rewrite preserves keys. -/
theorem dictInsert_key_pres {α : Type} (k : Str) (v : α) :
    ∀ p : Str × α, ((fun p => if p.1 == k then (k, v) else p) p).1 = p.1 := by
  intro p
  dsimp only
  by_cases hp : p.1 == k
  · rw [if_pos hp]
    exact (eq_of_beq hp).symm
  · rw [if_neg hp]

/-- Key-preserving rewrites commute with the id-keyed search. -/
theorem find?_key_map {α : Type} (f : Str × α → Str × α) (hf : ∀ p, (f p).1 = p.1) (k : Str) :
    ∀ d : List (Str × α),
      (d.map f).find? (fun p => p.1 == k) = (d.find? (fun p => p.1 == k)).map f := by
  intro d
  induction d with
  | nil => rfl
  | cons x xs ih =>
    simp only [List.map_cons, List.find?]
    rw [hf x]
    cases hx : (x.1 == k)
    · simpa using ih
    · simp

theorem lookupStr_dictInsert_ne {α : Type} (k k' : Str) (v : α) (d : List (Str × α))
    (h : k' ≠ k) : lookupStr k' (dictInsert k v d) = lookupStr k' d := by
  unfold dictInsert
  by_cases hany : d.any (fun p => p.1 == k)
  · rw [if_pos hany]
    unfold lookupStr
    rw [find?_key_map _ (dictInsert_key_pres k v) k' d]
    cases hfind : d.find? (fun p => p.1 == k') with
    | none => rfl
    | some p =>
      have hp := List.find?_some hfind
      have hp1 : p.1 = k' := by simpa using hp
      have hpk : (p.1 == k) = false := by simp [hp1, h]
      show some ((if p.1 == k then (k, v) else p).2) = some p.2
      rw [if_neg (by simp [hpk])]
  · rw [if_neg hany]
    unfold lookupStr
    cases hfind : d.find? (fun p => p.1 == k') with
    | none =>
      rw [find?_append_none _ d _ hfind]
      have hkk : ((k, v).1 == k') = false := by
        have hne : ¬k = k' := fun he => h he.symm
        simpa using hne
      simp only [List.find?, hkk]
    | some p =>
      rw [find?_append_some _ d _ p hfind]

theorem lookupStr_dictInsert_self_isSome {α : Type} (k : Str) (v : α) (d : List (Str × α)) :
    (lookupStr k (dictInsert k v d)).isSome := by
  unfold dictInsert
  by_cases hany : d.any (fun p => p.1 == k)
  · rw [if_pos hany]
    unfold lookupStr
    rw [find?_key_map _ (dictInsert_key_pres k v) k d]
    obtain ⟨x, hx, hpx⟩ := List.any_eq_true.mp hany
    cases hfind : d.find? (fun p => p.1 == k) with
    | none =>
      rw [List.find?_eq_none] at hfind
      exact absurd hpx (hfind x hx)
    | some p => rfl
  · rw [if_neg hany]
    unfold lookupStr
    have hany' : d.any (fun p => p.1 == k) = false := by
      cases hh : d.any (fun p => p.1 == k)
      · rfl
      · exact absurd hh hany
    have hnone : d.find? (fun p => p.1 == k) = none := by
      rw [List.find?_eq_none]
      intro x hx hpx
      exact (List.any_eq_false.mp hany') x hx hpx
    rw [find?_append_none _ d _ hnone]
    simp [List.find?]

theorem lookupStr_dictInsert_isSome {α : Type} (k k' : Str) (v : α) (d : List (Str × α))
    (h : (lookupStr k' d).isSome) : (lookupStr k' (dictInsert k v d)).isSome := by
  by_cases hk : k' = k
  · subst hk
    exact lookupStr_dictInsert_self_isSome k' v d
  · rw [lookupStr_dictInsert_ne k k' v d hk]
    exact h

theorem cycleCheckStart_mono {s cur : Str} {en : Node} {st₁ st₂ : CFState}
    (h : cycleCheckStart s cur en st₁ = some st₂) :
    ∀ c ∈ st₁.all_cycles, c ∈ st₂.all_cycles := by
  unfold cycleCheckStart at h
  by_cases hs : (en.id == s) = true
  · rw [if_pos hs] at h
    cases hl : lookupStr cur st₁.all_paths with
    | none => rw [hl] at h; cases h
    | some p =>
      rw [hl] at h
      injection h with h'
      subst h'
      exact fun c hc => List.mem_append_left _ hc
  · rw [if_neg hs] at h
    injection h with h'
    subst h'
    exact fun c hc => hc

theorem cycleEdgeStep_mono {g : DirectedGraph} {s cur : Str} {st st₁ : CFState} {e : Str}
    (h : cycleEdgeStep g s cur st e = some st₁) :
    ∀ c ∈ st.all_cycles, c ∈ st₁.all_cycles := by
  unfold cycleEdgeStep at h
  cases hg : g.getNode e with
  | none => rw [hg] at h; cases h
  | some en =>
    simp only [hg] at h
    by_cases hseen : st.visited.contains en.id = true
    · rw [if_pos hseen] at h
      exact cycleCheckStart_mono h
    · rw [if_neg hseen] at h
      cases hl : lookupStr cur st.all_paths with
      | none => rw [hl] at h; cases h
      | some p =>
        simp only [hl] at h
        exact fun c hc => cycleCheckStart_mono h c hc

theorem cycleEdgesAux_mono {g : DirectedGraph} {s cur : Str} :
    ∀ {es : List Str} {st st' : CFState},
      cycleEdgesAux g s cur st es = some st' → ∀ c ∈ st.all_cycles, c ∈ st'.all_cycles := by
  intro es
  induction es with
  | nil =>
    intro st st' h
    injection h with h'
    subst h'
    exact fun c hc => hc
  | cons e rest ih =>
    intro st st' h
    unfold cycleEdgesAux at h
    cases hstep : cycleEdgeStep g s cur st e with
    | none => rw [hstep] at h; cases h
    | some st₁ =>
      rw [hstep] at h
      exact fun c hc => ih h c (cycleEdgeStep_mono hstep c hc)

theorem cycleLoop_mono (g : DirectedGraph) (s : Str) :
    ∀ (fuel : Nat) (st st' : CFState),
      cycleLoop g s fuel st = some st' → ∀ c ∈ st.all_cycles, c ∈ st'.all_cycles := by
  intro fuel
  induction fuel with
  | zero =>
    intro st st' h
    cases h
  | succ fuel ih =>
    intro st st' h
    unfold cycleLoop at h
    split at h
    · injection h with h'
      exact h' ▸ fun c hc => hc
    · split at h
      · cases h
      · split at h
        · cases h
        · next st₂ haux =>
          exact fun c hc => ih st₂ st' h c (cycleEdgesAux_mono haux c hc)

/-- Any state `cycleLoop` stops at has an empty frontier: `some` arises
only at the re-entered loop head where `pop_front`'s assert fails. -/
theorem cycleLoop_empty_at_crash (g : DirectedGraph) (s : Str) :
    ∀ (fuel : Nat) (st st' : CFState),
      cycleLoop g s fuel st = some st' → st'.to_visit = [] := by
  intro fuel
  induction fuel with
  | zero =>
    intro st st' h
    cases h
  | succ fuel ih =>
    intro st st' h
    unfold cycleLoop at h
    split at h
    · next heq =>
      injection h with h'
      subst h'
      exact heq
    · split at h
      · cases h
      · split at h
        · cases h
        · next st₂ haux =>
          exact ih st₂ st' h

theorem cycleCheckStart_spec (s cur : Str) (en : Node) (st₁ : CFState)
    (hcur : (lookupStr cur st₁.all_paths).isSome) :
    ∃ st₂, cycleCheckStart s cur en st₁ = some st₂ ∧
      st₂.visited = st₁.visited ∧ st₂.to_visit = st₁.to_visit ∧
      st₂.all_paths = st₁.all_paths ∧
      (∀ c ∈ st₁.all_cycles, c ∈ st₂.all_cycles) ∧
      (en.id = s → ∀ q, lookupStr cur st₁.all_paths = some q → q ∈ st₂.all_cycles) := by
  unfold cycleCheckStart
  by_cases hs : (en.id == s) = true
  · obtain ⟨p, hp⟩ := Option.isSome_iff_exists.mp hcur
    rw [if_pos hs, hp]
    refine ⟨_, rfl, rfl, rfl, rfl, fun c hc => List.mem_append_left _ hc, ?_⟩
    intro _ q hq
    injection hq with hq'
    subst hq'
    exact List.mem_append_right _ (List.mem_singleton.mpr rfl)
  · rw [if_neg hs]
    refine ⟨st₁, rfl, rfl, rfl, rfl, fun c hc => hc, ?_⟩
    intro he
    exact absurd (show (en.id == s) = true by simp [he]) hs

theorem cycleEdgesAux_spec (g : DirectedGraph) (s cur : Str) :
    ∀ (es : List Str) (st : CFState),
      (∀ e ∈ es, (g.getNode e).isSome) →
      (∀ m ∈ st.to_visit, m ∈ g.nodes ∧ (lookupStr m.id st.all_paths).isSome) →
      (lookupStr cur st.all_paths).isSome →
      ∃ st', cycleEdgesAux g s cur st es = some st' ∧
        (∀ m ∈ st'.to_visit, m ∈ g.nodes ∧ (lookupStr m.id st'.all_paths).isSome) ∧
        (∀ k : Str, (lookupStr k st.all_paths).isSome → (lookupStr k st'.all_paths).isSome) := by
  intro es
  induction es with
  | nil =>
    intro st _ hq _
    exact ⟨st, rfl, hq, fun _ hk => hk⟩
  | cons e rest ih =>
    intro st hes hq hcur
    obtain ⟨en, hen⟩ := Option.isSome_iff_exists.mp (hes e (List.mem_cons_self _ _))
    obtain ⟨henid, henmem⟩ := getNode_eq_some hen
    have hes' : ∀ e' ∈ rest, (g.getNode e').isSome :=
      fun e' he' => hes e' (List.mem_cons_of_mem _ he')
    by_cases hseen : st.visited.contains en.id = true
    · obtain ⟨st₂, hccs, hv2, ht2, hp2, hcyc2, -⟩ := cycleCheckStart_spec s cur en st hcur
      have hstep : cycleEdgeStep g s cur st e = some st₂ := by
        unfold cycleEdgeStep
        simp only [hen]
        rw [if_pos hseen]
        exact hccs
      have hq2 : ∀ m ∈ st₂.to_visit, m ∈ g.nodes ∧ (lookupStr m.id st₂.all_paths).isSome := by
        intro m hm
        rw [ht2] at hm
        rw [hp2]
        exact hq m hm
      have hcur2 : (lookupStr cur st₂.all_paths).isSome := by
        rw [hp2]
        exact hcur
      obtain ⟨st', haux, hq', hpres'⟩ := ih st₂ hes' hq2 hcur2
      refine ⟨st', ?_, hq', ?_⟩
      · unfold cycleEdgesAux
        simp only [hstep]
        exact haux
      · intro k hk
        apply hpres' k
        rw [hp2]
        exact hk
    · obtain ⟨p, hpl⟩ := Option.isSome_iff_exists.mp hcur
      have hcur2 : (lookupStr cur (dictInsert en.id (p ++ [en.id]) st.all_paths)).isSome :=
        lookupStr_dictInsert_isSome en.id cur _ st.all_paths hcur
      obtain ⟨st₃, hccs, hv3, ht3, hp3, hcyc3, -⟩ :=
        cycleCheckStart_spec s cur en
          { st with
            visited := st.visited ++ [en.id],
            to_visit := st.to_visit ++ [en],
            all_paths := dictInsert en.id (p ++ [en.id]) st.all_paths }
          hcur2
      have hstep : cycleEdgeStep g s cur st e = some st₃ := by
        unfold cycleEdgeStep
        simp only [hen]
        rw [if_neg hseen]
        simp only [hpl]
        exact hccs
      have hq3 : ∀ m ∈ st₃.to_visit, m ∈ g.nodes ∧ (lookupStr m.id st₃.all_paths).isSome := by
        intro m hm
        rw [ht3] at hm
        rw [hp3]
        rcases List.mem_append.mp hm with hml | hmr
        · obtain ⟨hm1, hm2⟩ := hq m hml
          exact ⟨hm1, lookupStr_dictInsert_isSome en.id m.id _ st.all_paths hm2⟩
        · rcases List.mem_singleton.mp hmr with rfl
          exact ⟨henmem, lookupStr_dictInsert_self_isSome m.id _ st.all_paths⟩
      have hcur3 : (lookupStr cur st₃.all_paths).isSome := by
        rw [hp3]
        exact hcur2
      obtain ⟨st', haux, hq', hpres'⟩ := ih st₃ hes' hq3 hcur3
      refine ⟨st', ?_, hq', ?_⟩
      · unfold cycleEdgesAux
        simp only [hstep]
        exact haux
      · intro k hk
        apply hpres' k
        rw [hp3]
        exact lookupStr_dictInsert_isSome en.id k _ st.all_paths hk

/-- The visited set and the frontier are untouched by the back-to-start
check. -/
theorem cycleCheckStart_frames {s cur : Str} {en : Node} {st₁ st₂ : CFState}
    (h : cycleCheckStart s cur en st₁ = some st₂) :
    st₂.visited = st₁.visited ∧ st₂.to_visit = st₁.to_visit := by
  unfold cycleCheckStart at h
  by_cases hs : (en.id == s) = true
  · rw [if_pos hs] at h
    cases hl : lookupStr cur st₁.all_paths with
    | none => rw [hl] at h; cases h
    | some p =>
      rw [hl] at h
      injection h with h'
      subst h'
      exact ⟨rfl, rfl⟩
  · rw [if_neg hs] at h
    injection h with h'
    subst h'
    exact ⟨rfl, rfl⟩

theorem length_lt_of_nodup_subset {l₁ l₂ : List Str} (hn : l₁.Nodup)
    (hsub : l₁ ⊆ l₂) (x : Str) (hx2 : x ∈ l₂) (hx1 : x ∉ l₁) :
    l₁.length < l₂.length := by
  have hn' : (x :: l₁).Nodup := List.nodup_cons.mpr ⟨hx1, hn⟩
  have hsub' : (x :: l₁) ⊆ l₂ := by
    intro a ha
    rcases List.mem_cons.mp ha with rfl | ha'
    · exact hx2
    · exact hsub ha'
  have hle := (hn'.subperm hsub').length_le
  simpa using hle

/-- The graph node ids not yet marked visited.  Together with the frontier
length this bounds the remaining iterations of the traversal loop: each
iteration pops one frontier node, and each push consumes one unvisited
id. -/
def unvisitedIds (g : DirectedGraph) (visited : List Str) : List Str :=
  ((g.nodes.map Node.id).dedup).filter (fun i => !(visited.contains i))

theorem unvisited_push_lt (g : DirectedGraph) (v : List Str) (x : Str)
    (hx : x ∈ g.nodes.map Node.id) (hnx : v.contains x = false) :
    (unvisitedIds g (v ++ [x])).length < (unvisitedIds g v).length := by
  unfold unvisitedIds
  apply length_lt_of_nodup_subset (List.Nodup.filter _ (List.nodup_dedup _)) ?hsub x ?hx2 ?hx1
  case hsub =>
    intro a ha
    rw [List.mem_filter] at ha ⊢
    refine ⟨ha.1, ?_⟩
    have h2 : a ∉ v ++ [x] := by simpa using ha.2
    simp only [Bool.not_eq_true']
    have h3 : a ∉ v := fun hav => h2 (List.mem_append_left _ hav)
    simpa using h3
  case hx2 =>
    rw [List.mem_filter]
    refine ⟨List.mem_dedup.mpr hx, ?_⟩
    have h4 : x ∉ v := by simpa using hnx
    simpa using h4
  case hx1 =>
    rw [List.mem_filter]
    rintro ⟨-, hx2⟩
    simp at hx2

/-- One edge step never increases the loop measure: the seen branch leaves
frontier and visited alone, and a push trades one unvisited id for one
frontier slot. -/
theorem cycleEdgeStep_measure (g : DirectedGraph) (s cur : Str) (st st₁ : CFState) (e : Str)
    (h : cycleEdgeStep g s cur st e = some st₁) :
    st₁.to_visit.length + (unvisitedIds g st₁.visited).length ≤
      st.to_visit.length + (unvisitedIds g st.visited).length := by
  unfold cycleEdgeStep at h
  cases hg : g.getNode e with
  | none => rw [hg] at h; cases h
  | some en =>
    simp only [hg] at h
    obtain ⟨henid, henmem⟩ := getNode_eq_some hg
    by_cases hseen : st.visited.contains en.id = true
    · rw [if_pos hseen] at h
      obtain ⟨hv, ht⟩ := cycleCheckStart_frames h
      rw [hv, ht]
    · rw [if_neg hseen] at h
      cases hl : lookupStr cur st.all_paths with
      | none => rw [hl] at h; cases h
      | some p =>
        simp only [hl] at h
        obtain ⟨hv, ht⟩ := cycleCheckStart_frames h
        rw [hv, ht]
        show (st.to_visit ++ [en]).length + (unvisitedIds g (st.visited ++ [en.id])).length ≤ _
        rw [List.length_append, List.length_singleton]
        have hseen' : st.visited.contains en.id = false := by
          cases hb : st.visited.contains en.id
          · rfl
          · exact absurd hb hseen
        have hlt := unvisited_push_lt g st.visited en.id
          (List.mem_map_of_mem Node.id henmem) hseen'
        omega

theorem cycleEdgesAux_measure (g : DirectedGraph) (s cur : Str) :
    ∀ (es : List Str) (st st' : CFState),
      cycleEdgesAux g s cur st es = some st' →
      st'.to_visit.length + (unvisitedIds g st'.visited).length ≤
        st.to_visit.length + (unvisitedIds g st.visited).length := by
  intro es
  induction es with
  | nil =>
    intro st st' h
    injection h with h'
    subst h'
    exact Nat.le_refl _
  | cons e rest ih =>
    intro st st' h
    unfold cycleEdgesAux at h
    cases hstep : cycleEdgeStep g s cur st e with
    | none => rw [hstep] at h; cases h
    | some st₁ =>
      rw [hstep] at h
      exact Nat.le_trans (ih st₁ st' h) (cycleEdgeStep_measure g s cur st st₁ e hstep)

/-- With fuel exceeding the loop measure the traversal always reaches the
re-entered loop head on an empty frontier — the `pop_front` assert
failure — and never the fuel-exhaustion artifact. -/
theorem cycleLoop_reaches (g : DirectedGraph) (s : Str)
    (hclosed : ∀ m ∈ g.nodes, ∀ e ∈ m.edges, (g.getNode e).isSome) :
    ∀ (fuel : Nat) (st : CFState),
      st.to_visit.length + (unvisitedIds g st.visited).length < fuel →
      (∀ m ∈ st.to_visit, m ∈ g.nodes ∧ (lookupStr m.id st.all_paths).isSome) →
      ∃ st', cycleLoop g s fuel st = some st' := by
  intro fuel
  induction fuel with
  | zero =>
    intro st hlt _
    exact absurd hlt (Nat.not_lt_zero _)
  | succ fuel ih =>
    intro st hlt hq
    cases hvis : st.to_visit with
    | nil =>
      refine ⟨st, ?_⟩
      unfold cycleLoop
      rw [hvis]
    | cons n rest =>
      obtain ⟨hnmem, hnpath⟩ := hq n (by rw [hvis]; exact List.mem_cons_self _ _)
      have hq1 : ∀ m ∈ ({ st with to_visit := rest } : CFState).to_visit,
          m ∈ g.nodes ∧ (lookupStr m.id ({ st with to_visit := rest } : CFState).all_paths).isSome :=
        fun m hm => hq m (by rw [hvis]; exact List.mem_cons_of_mem _ hm)
      obtain ⟨pn, hpn⟩ := Option.isSome_iff_exists.mp hnpath
      obtain ⟨st', haux, hq', -⟩ :=
        cycleEdgesAux_spec g s n.id n.edges { st with to_visit := rest }
          (fun e he => hclosed n hnmem e he) hq1 hnpath
      have h1 : st'.to_visit.length + (unvisitedIds g st'.visited).length ≤
          rest.length + (unvisitedIds g st.visited).length :=
        cycleEdgesAux_measure g s n.id n.edges { st with to_visit := rest } st' haux
      have hlen : st.to_visit.length = rest.length + 1 := by
        rw [hvis]
        rfl
      obtain ⟨st'', hloop⟩ := ih st' (by omega) hq'
      refine ⟨st'', ?_⟩
      unfold cycleLoop
      rw [hvis]
      simp only [hpn, haux, hloop]

/-- Seeding the visited set with one graph node's id leaves strictly fewer
unvisited ids than there are nodes. -/
theorem unvisited_seed_lt (g : DirectedGraph) (n : Node) (hmem : n ∈ g.nodes) :
    (unvisitedIds g [n.id]).length < g.nodes.length := by
  have h1 : (unvisitedIds g [n.id]).length < ((g.nodes.map Node.id).dedup).length := by
    unfold unvisitedIds
    apply length_lt_of_nodup_subset (List.Nodup.filter _ (List.nodup_dedup _))
      (fun a ha => List.mem_of_mem_filter ha) n.id
      (List.mem_dedup.mpr (List.mem_map_of_mem Node.id hmem))
    rw [List.mem_filter]
    rintro ⟨-, hx⟩
    simp at hx
  have h2 : ((g.nodes.map Node.id).dedup).length ≤ (g.nodes.map Node.id).length :=
    (List.dedup_sublist _).length_le
  have h3 : (g.nodes.map Node.id).length = g.nodes.length := List.length_map _ _
  omega

/-- `findCycleForNode` on a present start node in a graph whose edges all
resolve: the run always ends at `pop_front`'s failed assert, with the
frontier empty in the carried state. -/
theorem findCycleForNode_crashes (g : DirectedGraph) (n : Node)
    (hmem : n ∈ g.nodes)
    (hclosed : ∀ m ∈ g.nodes, ∀ e ∈ m.edges, (g.getNode e).isSome) :
    ∃ st, CycleFinder.findCycleForNode g n = some st ∧ st.to_visit = [] := by
  have hany : g.nodes.any (fun m => m.id == n.id) = true :=
    List.any_eq_true.mpr ⟨n, hmem, by simp⟩
  have hlk : lookupStr n.id ([(n.id, [n.id])] : List (Str × List Str)) = some [n.id] := by
    simp [lookupStr, List.find?]
  have hmeas : (CFState.mk [n.id] [n] [(n.id, [n.id])] []).to_visit.length +
      (unvisitedIds g (CFState.mk [n.id] [n] [(n.id, [n.id])] []).visited).length <
      g.nodes.length + 1 := by
    show 1 + (unvisitedIds g [n.id]).length < g.nodes.length + 1
    have := unvisited_seed_lt g n hmem
    omega
  obtain ⟨st, hst⟩ := cycleLoop_reaches g n.id hclosed (g.nodes.length + 1)
    (CFState.mk [n.id] [n] [(n.id, [n.id])] []) hmeas
    (by
      intro m hm
      rcases List.mem_singleton.mp hm with rfl
      exact ⟨hmem, by rw [hlk]; rfl⟩)
  refine ⟨st, ?_, cycleLoop_empty_at_crash g n.id (g.nodes.length + 1) _ st hst⟩
  unfold CycleFinder.findCycleForNode
  rw [if_pos hany]
  exact hst

theorem cycleEdgesAux_self (g : DirectedGraph) (s : Str) :
    ∀ (es : List Str) (st : CFState),
      (∀ e ∈ es, (g.getNode e).isSome) →
      s ∈ st.visited →
      lookupStr s st.all_paths = some [s] →
      ∃ st', cycleEdgesAux g s s st es = some st' ∧
        s ∈ st'.visited ∧ lookupStr s st'.all_paths = some [s] ∧
        (s ∈ es → [s] ∈ st'.all_cycles) ∧
        (∀ c ∈ st.all_cycles, c ∈ st'.all_cycles) := by
  intro es
  induction es with
  | nil =>
    intro st _ hvis hpath
    exact ⟨st, rfl, hvis, hpath, fun hs => absurd hs (List.not_mem_nil s), fun _ hc => hc⟩
  | cons e rest ih =>
    intro st hes hvis hpath
    obtain ⟨en, hen⟩ := Option.isSome_iff_exists.mp (hes e (List.mem_cons_self _ _))
    obtain ⟨henid, henmem⟩ := getNode_eq_some hen
    have hes' : ∀ e' ∈ rest, (g.getNode e').isSome :=
      fun e' he' => hes e' (List.mem_cons_of_mem _ he')
    have hcur : (lookupStr s st.all_paths).isSome := by rw [hpath]; rfl
    by_cases hseen : st.visited.contains en.id = true
    · obtain ⟨st₂, hccs, hv2, ht2, hp2, hcyc2, hrec2⟩ := cycleCheckStart_spec s s en st hcur
      have hstep : cycleEdgeStep g s s st e = some st₂ := by
        unfold cycleEdgeStep
        simp only [hen]
        rw [if_pos hseen]
        exact hccs
      obtain ⟨st', haux, hvis', hpath', hrec', hmono'⟩ := ih st₂ hes'
        (by rw [hv2]; exact hvis) (by rw [hp2]; exact hpath)
      refine ⟨st', ?_, hvis', hpath', ?_, ?_⟩
      · unfold cycleEdgesAux
        simp only [hstep]
        exact haux
      · intro hsmem
        rcases List.mem_cons.mp hsmem with rfl | hsrest
        · exact hmono' [s] (hrec2 (by rw [henid]) [s] hpath)
        · exact hrec' hsrest
      · exact fun c hc => hmono' c (hcyc2 c hc)
    · have hens : en.id ≠ s := by
        intro hx
        exact hseen (by rw [hx]; simpa using hvis)
      have hcur2 : (lookupStr s (dictInsert en.id ([s] ++ [en.id]) st.all_paths)).isSome :=
        lookupStr_dictInsert_isSome en.id s _ st.all_paths hcur
      obtain ⟨st₃, hccs, hv3, ht3, hp3, hcyc3, -⟩ :=
        cycleCheckStart_spec s s en
          { st with
            visited := st.visited ++ [en.id],
            to_visit := st.to_visit ++ [en],
            all_paths := dictInsert en.id ([s] ++ [en.id]) st.all_paths }
          hcur2
      have hstep : cycleEdgeStep g s s st e = some st₃ := by
        unfold cycleEdgeStep
        simp only [hen]
        rw [if_neg hseen]
        simp only [hpath]
        exact hccs
      have hvis3 : s ∈ st₃.visited := by
        rw [hv3]
        exact List.mem_append_left _ hvis
      have hpath3 : lookupStr s st₃.all_paths = some [s] := by
        rw [hp3]
        show lookupStr s (dictInsert en.id ([s] ++ [en.id]) st.all_paths) = some [s]
        rw [lookupStr_dictInsert_ne en.id s _ st.all_paths (fun hx => hens hx.symm)]
        exact hpath
      obtain ⟨st', haux, hvis', hpath', hrec', hmono'⟩ := ih st₃ hes' hvis3 hpath3
      refine ⟨st', ?_, hvis', hpath', ?_, ?_⟩
      · unfold cycleEdgesAux
        simp only [hstep]
        exact haux
      · intro hsmem
        rcases List.mem_cons.mp hsmem with rfl | hsrest
        · exact absurd henid hens
        · exact hrec' hsrest
      · exact fun c hc => hmono' c (hcyc3 c hc)

/-- C10: for every graph whose edges all resolve to present nodes, and
every node of the graph carrying a self-loop, the traversal records the
single-element path holding just that node's id as one of its cycle
witnesses: the self-edge is examined while its target is already marked
visited, but the back-to-start check runs regardless of visitedness.  The
witness sits in `all_cycles` of the state at which the run then dies —
`pop_front`'s assert on the emptied frontier (`while bfs:` ignores the
Python-2 `__nonzero__` hook), carried by the model as `some st`; the
Python run discards it with the `AssertionError` and never returns it. -/
theorem c10_self_loop_witnessed (g : DirectedGraph) (ns : Node)
    (hmem : ns ∈ g.nodes)
    (hclosed : ∀ m ∈ g.nodes, ∀ e ∈ m.edges, (g.getNode e).isSome)
    (hself : ns.id ∈ ns.edges) :
    ∃ st, CycleFinder.findCycleForNode g ns = some st ∧
      st.to_visit = [] ∧ [ns.id] ∈ st.all_cycles := by
  have hany : g.nodes.any (fun m => m.id == ns.id) = true :=
    List.any_eq_true.mpr ⟨ns, hmem, by simp⟩
  have hlk : lookupStr ns.id ([(ns.id, [ns.id])] : List (Str × List Str)) = some [ns.id] := by
    simp [lookupStr, List.find?]
  obtain ⟨stA, hauxA, hvisA, hpathA, hrecA, -⟩ :=
    cycleEdgesAux_self g ns.id ns.edges (CFState.mk [ns.id] [] [(ns.id, [ns.id])] [])
      (fun e he => hclosed ns hmem e he) (List.mem_singleton.mpr rfl) hlk
  obtain ⟨stB, hauxB, hqB, -⟩ :=
    cycleEdgesAux_spec g ns.id ns.id ns.edges (CFState.mk [ns.id] [] [(ns.id, [ns.id])] [])
      (fun e he => hclosed ns hmem e he) (fun m hm => absurd hm (List.not_mem_nil m))
      (by rw [hlk]; rfl)
  have hABeq : stA = stB := by
    have h2 := hauxA.symm.trans hauxB
    injection h2
  subst hABeq
  have hmeasA : stA.to_visit.length + (unvisitedIds g stA.visited).length <
      g.nodes.length := by
    have h1 : stA.to_visit.length + (unvisitedIds g stA.visited).length ≤
        0 + (unvisitedIds g [ns.id]).length :=
      cycleEdgesAux_measure g ns.id ns.id ns.edges
        (CFState.mk [ns.id] [] [(ns.id, [ns.id])] []) stA hauxA
    have h2 := unvisited_seed_lt g ns hmem
    omega
  obtain ⟨st', hloop⟩ := cycleLoop_reaches g ns.id hclosed g.nodes.length stA hmeasA hqB
  refine ⟨st', ?_, cycleLoop_empty_at_crash g ns.id g.nodes.length stA st' hloop,
    cycleLoop_mono g ns.id g.nodes.length stA st' hloop [ns.id] (hrecA hself)⟩
  unfold CycleFinder.findCycleForNode
  rw [if_pos hany]
  unfold cycleLoop
  simp only [hlk, hauxA, hloop]

/-- Witness for `c10_self_loop_witnessed` at a concrete input: the
single-node graph with the self-loop `s -> s`. -/
theorem c10_witness :
    ∃ st, CycleFinder.findCycleForNode gSelf nodeSelf = some st ∧
      st.to_visit = [] ∧ ["s".toList] ∈ st.all_cycles :=
  c10_self_loop_witnessed gSelf nodeSelf (by decide) (by decide) (by decide)

/-! ### C2: the shape of the findCyclesInGraph result -/

/-- `findCyclesAux` reaches the normal return only with an empty work
list: on any pending starting node the callee raises. -/
theorem findCyclesAux_ok (g : DirectedGraph) :
    ∀ (ns : List Node) (acc r : List (Node × List (List Str))),
      findCyclesAux g acc ns = some (.ok r) → ns = [] ∧ r = acc := by
  intro ns acc r h
  cases ns with
  | nil =>
    refine ⟨rfl, ?_⟩
    have h' : some (Except.ok acc) = some (Except.ok r) := h
    injection h' with h1
    injection h1 with h2
    exact h2.symm
  | cons n rest =>
    have h' : (match CycleFinder.findCycleForNode g n with
        | none => none
        | some st => some (Except.error st)) = some (Except.ok r) := h
    cases hc : CycleFinder.findCycleForNode g n with
    | none => rw [hc] at h'; cases h'
    | some st =>
      rw [hc] at h'
      injection h' with h1
      cases h1

/-- Amended C2: running cycle detection over all nodes never yields the
claimed mapping.  Under Python 3 `while bfs:` ignores `BFS.__nonzero__`,
so each per-start traversal dies at `pop_front`'s assert;
`findCyclesInGraph` therefore propagates `AssertionError` out of its first
starting node, and only the empty graph returns a mapping — the empty
one.  In particular, on the acyclic chain `A -> B -> C` the call raises
instead of mapping every node to an empty witness list. -/
theorem c2_cycles_assertion_error :
    (∀ (g : DirectedGraph) (n : Node) (rest : List Node),
      g.nodes = n :: rest →
      (∀ m ∈ g.nodes, ∀ e ∈ m.edges, (g.getNode e).isSome) →
      ∃ st, CycleFinder.findCyclesInGraph g = some (.error st)) ∧
    (∀ (g : DirectedGraph) (r : List (Node × List (List Str))),
      CycleFinder.findCyclesInGraph g = some (.ok r) → g.nodes = [] ∧ r = []) := by
  constructor
  · intro g n rest hns hclosed
    obtain ⟨st, hst, -⟩ :=
      findCycleForNode_crashes g n (by rw [hns]; exact List.mem_cons_self _ _) hclosed
    refine ⟨st, ?_⟩
    show findCyclesAux g [] g.nodes = some (.error st)
    rw [hns]
    show (match CycleFinder.findCycleForNode g n with
      | none => none
      | some st' => some (Except.error st')) = some (.error st)
    rw [hst]
  · intro g r h
    exact findCyclesAux_ok g g.nodes [] r h

/-- Counterexample to C2 as stated: on the acyclic chain the result of
`findCyclesInGraph` is not a mapping at all — the first start's traversal
fails `pop_front`'s assert and the `AssertionError` propagates, its state
holding no witness for any node. -/
theorem c2_counterexample :
    CycleFinder.findCyclesInGraph gAcyc = some (Except.error
      (CFState.mk ["A".toList, "B".toList, "C".toList] []
        [("A".toList, ["A".toList]), ("B".toList, ["A".toList, "B".toList]),
         ("C".toList, ["A".toList, "B".toList, "C".toList])] [])) := by decide

/-- Witness for `c2_cycles_assertion_error` at concrete inputs: the
acyclic chain raises, the empty graph returns the empty mapping. -/
theorem c2_witness :
    (∃ st, CycleFinder.findCyclesInGraph gAcyc = some (.error st)) ∧
    ((DirectedGraph.mk none []).nodes = [] ∧
      ([] : List (Node × List (List Str))) = []) :=
  ⟨c2_cycles_assertion_error.1 gAcyc nodeA [nodeB, nodeCEnd] (by decide) (by decide),
   c2_cycles_assertion_error.2 (DirectedGraph.mk none []) [] (by decide)⟩


/-! ### Parser inversion: string-level helper lemmas -/

theorem break_not_word {c : Char} (h : isLineBreak c = true) : isWordChar c = false := by
  simp only [isLineBreak, Bool.or_eq_true, decide_eq_true_eq] at h
  rcases h with ((((((((h1 | h1) | h1) | h1) | h1) | h1) | h1) | h1) | h1) | h1 <;>
    subst h1 <;> decide

theorem word_not_break {c : Char} (h : isWordChar c = true) : isLineBreak c = false := by
  cases hb : isLineBreak c
  · rfl
  · rw [break_not_word hb] at h
    cases h

theorem space_not_word {c : Char} (h : isWordChar c = true) : isSpaceChar c = false :=
  word_not_space h

theorem lstrip_cons_nonspace {c : Char} (cs : Str) (h : isSpaceChar c = false) :
    lstrip (c :: cs) = c :: cs := by
  unfold lstrip
  exact dropWhile_cons_false _ _ _ h

theorem lstrip_nil : lstrip [] = [] := rfl

theorem strip_indent (l : Str) : strip (' ' :: ' ' :: l) = strip l := by
  unfold strip lstrip
  rw [List.dropWhile_cons, List.dropWhile_cons]
  simp [isSpaceChar]

theorem dropWhile_eq_self_of_head {p : Char → Bool} :
    ∀ l : Str, (∀ c, l.head? = some c → p c = false) → l.dropWhile p = l := by
  intro l h
  cases l with
  | nil => rfl
  | cons c cs => exact dropWhile_cons_false _ _ _ (h c rfl)

/-- A string whose first and last characters are not whitespace strips to
itself. -/
theorem strip_eq_self (l : Str)
    (hh : ∀ c, l.head? = some c → isSpaceChar c = false)
    (hl : ∀ c, l.getLast? = some c → isSpaceChar c = false) :
    strip l = l := by
  unfold strip lstrip
  rw [dropWhile_eq_self_of_head l hh]
  rw [dropWhile_eq_self_of_head l.reverse (fun c hc => hl c (by rwa [List.head?_reverse] at hc))]
  exact List.reverse_reverse l

theorem dropWhile_all {p : Char → Bool} : ∀ l : Str, (∀ c ∈ l, p c = true) → l.dropWhile p = [] := by
  intro l h
  induction l with
  | nil => rfl
  | cons c cs ih =>
    rw [List.dropWhile_cons, h c (List.mem_cons_self _ _), if_pos rfl]
    exact ih (fun d hd => h d (List.mem_cons_of_mem _ hd))

/-- Stripping a string made of leading whitespace, a core with non-space
ends, and trailing whitespace returns exactly the core. -/
theorem strip_spaces_wrap (pre mid tail : Str)
    (hpre : ∀ c ∈ pre, isSpaceChar c = true)
    (htail : ∀ c ∈ tail, isSpaceChar c = true)
    (hh : ∀ c, mid.head? = some c → isSpaceChar c = false)
    (hl : ∀ c, mid.getLast? = some c → isSpaceChar c = false) :
    strip (pre ++ mid ++ tail) = mid := by
  unfold strip lstrip
  rw [List.append_assoc, dropWhile_append_of_all _ pre _ hpre]
  cases mid with
  | nil =>
    rw [List.nil_append, dropWhile_all tail htail]
    rfl
  | cons c cs =>
    have hc : isSpaceChar c = false := hh c rfl
    rw [List.cons_append, dropWhile_cons_false _ _ _ hc]
    rw [show (c :: (cs ++ tail)) = (c :: cs) ++ tail from rfl]
    rw [List.reverse_append]
    rw [dropWhile_append_of_all _ tail.reverse _ (fun d hd => htail d (List.mem_reverse.mp hd))]
    rw [dropWhile_eq_self_of_head _ (fun d hd => hl d (by rwa [List.head?_reverse] at hd))]
    exact List.reverse_reverse _

theorem dropLit_exact : ∀ (p r : Str), dropLit p (p ++ r) = some r := by
  intro p
  induction p with
  | nil => intro r; rfl
  | cons c cs ih =>
    intro r
    rw [List.cons_append]
    unfold dropLit
    rw [if_pos rfl]
    exact ih r

theorem mem_joinSep {sep : Str} :
    ∀ {ls : List Str} {c : Char}, c ∈ joinSep sep ls → c ∈ sep ∨ ∃ l ∈ ls, c ∈ l := by
  intro ls
  induction ls with
  | nil => intro c hc; cases hc
  | cons l rest ih =>
    intro c hc
    cases rest with
    | nil =>
      exact Or.inr ⟨l, List.mem_cons_self _ _, hc⟩
    | cons l₂ rest₂ =>
      rw [show joinSep sep (l :: l₂ :: rest₂) = l ++ sep ++ joinSep sep (l₂ :: rest₂) from rfl]
        at hc
      rcases List.mem_append.mp hc with hc1 | hc2
      · rcases List.mem_append.mp hc1 with hc3 | hc4
        · exact Or.inr ⟨l, List.mem_cons_self _ _, hc3⟩
        · exact Or.inl hc4
      · rcases ih hc2 with h | ⟨l', hl', hc'⟩
        · exact Or.inl h
        · exact Or.inr ⟨l', List.mem_cons_of_mem _ hl', hc'⟩

theorem linesOf_cons_nonbreak (c : Char) (cs : Str) (h : isLineBreak c = false) :
    linesOf (c :: cs) = consLine c (linesOf cs) := by
  have hr : c ≠ '\r' := by
    intro hx
    subst hx
    cases h
  cases cs with
  | nil =>
    show (if isLineBreak c then [[]] else [[c]]) = consLine c (linesOf [])
    rw [if_neg (by simp [h])]
    rfl
  | cons d cs' =>
    show (if c = '\r' then _ else if isLineBreak c then _ else consLine c (linesOf (d :: cs')))
      = consLine c (linesOf (d :: cs'))
    rw [if_neg hr, if_neg (by simp [h])]

theorem linesOf_cons_break (c : Char) (cs : Str) (h : isLineBreak c = true) (hc : c ≠ '\r') :
    linesOf (c :: cs) = [] :: linesOf cs := by
  cases cs with
  | nil =>
    show (if isLineBreak c then [[]] else [[c]]) = [] :: linesOf []
    rw [if_pos h]
    rfl
  | cons d cs' =>
    show (if c = '\r' then _ else if isLineBreak c then [] :: linesOf (d :: cs') else _)
      = [] :: linesOf (d :: cs')
    rw [if_neg hc, if_pos h]

/-- Splitting off one break-free line at an explicit newline. -/
theorem linesOf_line_append (l : Str) (hl : ∀ c ∈ l, isLineBreak c = false) (rest : Str) :
    linesOf (l ++ '\n' :: rest) = l :: linesOf rest := by
  induction l with
  | nil =>
    rw [List.nil_append]
    exact linesOf_cons_break '\n' rest (by decide) (by decide)
  | cons c cs ih =>
    have hc : isLineBreak c = false := hl c (List.mem_cons_self _ _)
    rw [List.cons_append, linesOf_cons_nonbreak c _ hc,
      ih (fun d hd => hl d (List.mem_cons_of_mem _ hd))]
    rfl

/-- The physical lines contributed by one emitted section: the two-space
indent keeps a blank-looking line when the section is empty. -/
def padLines (ls : List Str) : List Str :=
  if ls.isEmpty then [[' ', ' ']] else ls.map (fun l => ' ' :: ' ' :: l)

/-- Splitting an indented newline-joined section followed by a newline. -/
theorem linesOf_block :
    ∀ (ls : List Str), (∀ l ∈ ls, ∀ c ∈ l, isLineBreak c = false) → ∀ rest : Str,
      linesOf ((' ' :: ' ' :: joinSep ("\n  ".toList) ls) ++ '\n' :: rest) =
        padLines ls ++ linesOf rest := by
  intro ls
  induction ls with
  | nil =>
    intro _ rest
    exact linesOf_line_append [' ', ' '] (by decide) rest
  | cons l ls' ih =>
    intro hnb rest
    cases ls' with
    | nil =>
      have : joinSep ("\n  ".toList) [l] = l := rfl
      rw [this]
      rw [linesOf_line_append (' ' :: ' ' :: l)
        (by
          intro c hc
          rcases List.mem_cons.mp hc with rfl | hc2
          · decide
          · rcases List.mem_cons.mp hc2 with rfl | hc3
            · decide
            · exact hnb l (List.mem_cons_self _ _) c hc3) rest]
      rfl
    | cons l₂ ls'' =>
      have hjoin : joinSep ("\n  ".toList) (l :: l₂ :: ls'') =
          l ++ ('\n' :: ' ' :: ' ' :: joinSep ("\n  ".toList) (l₂ :: ls'')) := by
        show (l ++ "\n  ".toList) ++ joinSep ("\n  ".toList) (l₂ :: ls'') = _
        simp
      rw [hjoin]
      have hassoc : (' ' :: ' ' :: (l ++ ('\n' :: ' ' :: ' ' :: joinSep ("\n  ".toList) (l₂ :: ls'')))) ++ '\n' :: rest
          = (' ' :: ' ' :: l) ++ '\n' :: ((' ' :: ' ' :: joinSep ("\n  ".toList) (l₂ :: ls'')) ++ '\n' :: rest) := by
        simp
      rw [hassoc]
      rw [linesOf_line_append (' ' :: ' ' :: l)
        (by
          intro c hc
          rcases List.mem_cons.mp hc with rfl | hc2
          · decide
          · rcases List.mem_cons.mp hc2 with rfl | hc3
            · decide
            · exact hnb l (List.mem_cons_self _ _) c hc3) _]
      rw [ih (fun l' hl' => hnb l' (List.mem_cons_of_mem _ hl'))]
      have hpad : padLines (l :: l₂ :: ls'') = (' ' :: ' ' :: l) :: padLines (l₂ :: ls'') := rfl
      rw [hpad]
      rfl

/-! ### Parser inversion: the Python-2 era rendering as concrete parser input -/

/-- Rendered node statements keyed by id, in node order (the shape the
Python-2 era serializer was written to build). -/
def nodeStringsOf (nodes : List Node) : List (Str × Str) :=
  nodes.map (fun n => (n.id, renderNode n))

/-- Rendered edge statements grouped by source node in node order. -/
def edgeLinesOf (nodes : List Node) : List Str :=
  nodes.flatMap (fun n => n.edges.map (fun d => edgeLine n.id d))

theorem addEdgesAux_eq (src : Str) :
    ∀ (es : List Str) (nm : Option Str) (ns : List (Str × Str)) (el : List Str),
      addEdgesAux src (DotEmitter.mk nm ns el) es =
        DotEmitter.mk nm ns (el ++ es.map (fun d => edgeLine src d)) := by
  intro es
  induction es with
  | nil => intro nm ns el; simp [addEdgesAux]
  | cons d rest ih =>
    intro nm ns el
    show addEdgesAux src (DotEmitter.addEdge (DotEmitter.mk nm ns el) src d) rest = _
    rw [show DotEmitter.addEdge (DotEmitter.mk nm ns el) src d =
      DotEmitter.mk nm ns (el ++ [edgeLine src d]) from rfl]
    rw [ih]
    simp

theorem insertSorted_le (x : Str) :
    ∀ ys : List Str, (∀ y, ys.head? = some y → strLe x y = true) → insertSorted x ys = x :: ys := by
  intro ys h
  cases ys with
  | nil => rfl
  | cons y ys' =>
    show (if strLe x y then x :: y :: ys' else y :: insertSorted x ys') = x :: y :: ys'
    rw [h y rfl, if_pos rfl]

/-- Sorting an already ascending key list is the identity. -/
theorem sortStrs_sorted :
    ∀ l : List Str, l.Pairwise (fun a b => strLe a b = true) → sortStrs l = l := by
  intro l
  induction l with
  | nil => intro _; rfl
  | cons x xs ih =>
    intro hp
    show insertSorted x (sortStrs xs) = x :: xs
    rw [ih hp.tail]
    refine insertSorted_le x xs ?_
    intro y hy
    cases xs with
    | nil => cases hy
    | cons z zs =>
      injection hy with hy'
      subst hy'
      exact (List.pairwise_cons.mp hp).1 z (List.mem_cons_self _ _)

theorem lookupStr_cons_self {α : Type} (k : Str) (v : α) (d : List (Str × α)) :
    lookupStr k ((k, v) :: d) = some v := by
  simp [lookupStr, List.find?]

theorem lookupStr_cons_ne {α : Type} (k k' : Str) (v : α) (d : List (Str × α)) (h : k ≠ k') :
    lookupStr k' ((k, v) :: d) = lookupStr k' d := by
  have hkk : ((k, v).1 == k') = false := by simpa using h
  simp [lookupStr, List.find?, hkk]

theorem filterMap_congr_mem {α β : Type} (f g : α → Option β) :
    ∀ l : List α, (∀ x ∈ l, f x = g x) → l.filterMap f = l.filterMap g := by
  intro l
  induction l with
  | nil => intro _; rfl
  | cons x xs ih =>
    intro h
    rw [List.filterMap_cons, List.filterMap_cons, h x (List.mem_cons_self _ _),
      ih (fun y hy => h y (List.mem_cons_of_mem _ hy))]

/-- Looking every key of a duplicate-free dictionary back up returns the
values in order. -/
theorem filterMap_lookup_self {α : Type} :
    ∀ NS : List (Str × α), (NS.map Prod.fst).Nodup →
      (NS.map Prod.fst).filterMap (fun k => lookupStr k NS) = NS.map Prod.snd := by
  intro NS
  induction NS with
  | nil => intro _; rfl
  | cons p rest ih =>
    intro hnodup
    rw [List.map_cons, List.map_cons, List.filterMap_cons]
    have hp : lookupStr p.1 (p :: rest) = some p.2 := by
      rw [show (p : Str × α) = (p.1, p.2) from rfl]
      exact lookupStr_cons_self p.1 p.2 rest
    rw [hp]
    have hnot : p.1 ∉ rest.map Prod.fst := (List.nodup_cons.mp hnodup).1
    have hcongr : (rest.map Prod.fst).filterMap (fun k => lookupStr k (p :: rest)) =
        (rest.map Prod.fst).filterMap (fun k => lookupStr k rest) := by
      refine filterMap_congr_mem _ _ _ ?_
      intro k hk
      have hne : p.1 ≠ k := fun hx => hnot (hx ▸ hk)
      rw [show (p : Str × α) = (p.1, p.2) from rfl]
      exact lookupStr_cons_ne p.1 k p.2 rest hne
    rw [hcongr, ih (List.nodup_cons.mp hnodup).2]

/-- A full rendered DOT text, as a function of a name, node statement
lines and edge statement lines; concrete input for the parser theorems. -/
def emitBody (nm : Str) (nls els : List Str) : Str :=
  ("digraph \"".toList) ++ nm ++ ("\" \x7b".toList) ++
  ('\n' :: ' ' :: ' ' :: joinSep ("\n  ".toList) nls) ++
  ('\n' :: ' ' :: ' ' :: joinSep ("\n  ".toList) els) ++ ('\n' :: ['\x7d'])

theorem getLast?_append_pair (xs : Str) (a b : Char) :
    (xs ++ (a :: [b])).getLast? = some b := by
  rw [show a :: [b] = [a] ++ [b] from rfl, ← List.append_assoc]
  exact List.getLast?_concat _

theorem emitBody_head (nm : Str) (nls els : List Str) :
    (emitBody nm nls els).head? = some 'd' := rfl

theorem emitBody_last (nm : Str) (nls els : List Str) :
    (emitBody nm nls els).getLast? = some '\x7d' := by
  unfold emitBody
  exact getLast?_append_pair _ '\n' '\x7d'

/-! ### Parser inversion: splitting a rendered text into statement lines -/

theorem stripFilter_indented (ls : List Str) (h : ∀ l ∈ ls, strip l = l ∧ l ≠ []) :
    ((ls.map (fun l => ' ' :: ' ' :: l)).map strip).filter (fun l => !l.isEmpty) = ls := by
  induction ls with
  | nil => rfl
  | cons l ls' ih =>
    obtain ⟨hs, hne⟩ := h l (List.mem_cons_self _ _)
    rw [List.map_cons, List.map_cons, strip_indent, hs, List.filter_cons]
    rw [if_pos (by simpa using hne)]
    rw [ih (fun l' hl' => h l' (List.mem_cons_of_mem _ hl'))]

theorem stripFilter_padLines (ls : List Str) (h : ∀ l ∈ ls, strip l = l ∧ l ≠ []) :
    ((padLines ls).map strip).filter (fun l => !l.isEmpty) = ls := by
  cases ls with
  | nil => decide
  | cons l ls' =>
    rw [show padLines (l :: ls') = (l :: ls').map (fun l => ' ' :: ' ' :: l) from rfl]
    exact stripFilter_indented (l :: ls') h

/-- The introducer line the emitter produces. -/
def introLine (nm : Str) : Str :=
  ("digraph \"".toList) ++ nm ++ ("\" \x7b".toList)

theorem introLine_head (nm : Str) : (introLine nm).head? = some 'd' := rfl

theorem introLine_last (nm : Str) : (introLine nm).getLast? = some '\x7b' := by
  unfold introLine
  rw [show ("\" \x7b".toList : Str) = ['"'] ++ (' ' :: ['\x7b']) from rfl, ← List.append_assoc]
  exact getLast?_append_pair _ ' ' '\x7b'

theorem introLine_noBreak (nm : Str) (hnm : ∀ c ∈ nm, isLineBreak c = false) :
    ∀ c ∈ introLine nm, isLineBreak c = false := by
  intro c hc
  unfold introLine at hc
  rcases List.mem_append.mp hc with hc1 | hc2
  · rcases List.mem_append.mp hc1 with hc3 | hc4
    · fin_cases hc3 <;> decide
    · exact hnm c hc4
  · fin_cases hc2 <;> decide

/-- Splitting the emitted text: one introducer line, the node statements,
the edge statements (each section leaving a blank line when empty), the
closer. -/
theorem parseLines_emitBody (nm : Str) (nls els : List Str)
    (hnm : ∀ c ∈ nm, isLineBreak c = false)
    (hn1 : ∀ l ∈ nls, ∀ c ∈ l, isLineBreak c = false)
    (he1 : ∀ l ∈ els, ∀ c ∈ l, isLineBreak c = false)
    (hn2 : ∀ l ∈ nls, strip l = l ∧ l ≠ [])
    (he2 : ∀ l ∈ els, strip l = l ∧ l ≠ []) :
    parseLines (emitBody nm nls els) = introLine nm :: (nls ++ els ++ [['\x7d']]) := by
  have hshape : emitBody nm nls els =
      introLine nm ++ '\n' :: ((' ' :: ' ' :: joinSep ("\n  ".toList) nls) ++
        '\n' :: ((' ' :: ' ' :: joinSep ("\n  ".toList) els) ++ '\n' :: ['\x7d'])) := by
    simp [emitBody, introLine, List.append_assoc]
  unfold parseLines
  rw [hshape]
  rw [linesOf_line_append _ (introLine_noBreak nm hnm)]
  rw [linesOf_block nls hn1]
  rw [linesOf_block els he1]
  rw [show linesOf ['\x7d'] = [['\x7d']] from by decide]
  rw [List.map_cons, List.filter_cons]
  have hsintro : strip (introLine nm) = introLine nm := by
    refine strip_eq_self _ ?_ ?_
    · intro c hc
      rw [introLine_head] at hc
      injection hc with h
      subst h
      decide
    · intro c hc
      rw [introLine_last] at hc
      injection hc with h
      subst h
      decide
  rw [hsintro]
  rw [if_pos (by
    show (!(introLine nm).isEmpty) = true
    rw [show introLine nm = 'd' :: (("igraph \"".toList) ++ nm ++ ("\" \x7b".toList)) from rfl]
    rfl)]
  rw [List.map_append, List.map_append, List.filter_append, List.filter_append]
  rw [stripFilter_padLines nls hn2, stripFilter_padLines els he2]
  rw [show (([['\x7d']] : List Str).map strip).filter (fun l => !l.isEmpty) = [['\x7d']] from by
    decide]
  rw [← List.append_assoc]

/-! ### Parser inversion: the rendered statement lines match the parser's patterns -/

theorem span_exact (p : Char → Bool) (xs r : Str) (hxs : ∀ c ∈ xs, p c = true)
    (hr : ∀ c, r.head? = some c → p c = false) :
    (xs ++ r).takeWhile p = xs ∧ (xs ++ r).dropWhile p = r := by
  constructor
  · rw [takeWhile_append_of_all _ _ _ hxs]
    cases r with
    | nil => simp
    | cons c r' =>
      rw [takeWhile_cons_false _ _ _ (hr c rfl)]
      simp
  · rw [dropWhile_append_of_all _ _ _ hxs]
    cases r with
    | nil => rfl
    | cons c r' => exact dropWhile_cons_false _ _ _ (hr c rfl)

theorem isEmpty_false_of_ne {α : Type} {l : List α} (h : l ≠ []) : l.isEmpty = false := by
  cases l with
  | nil => exact absurd rfl h
  | cons c cs => rfl

theorem parseIntroducer_render (nm : Str) (h1 : nm ≠ []) (h2 : ∀ c ∈ nm, c ≠ '"') :
    parseIntroducer (introLine nm) = some nm := by
  unfold parseIntroducer
  have hls : lstrip (introLine nm) = introLine nm :=
    dropWhile_eq_self_of_head _ (fun c hc => by
      rw [introLine_head] at hc
      injection hc with h
      subst h
      decide)
  rw [hls]
  have hdl : dropLit ("digraph \"".toList) (introLine nm) = some (nm ++ ("\" \x7b".toList)) := by
    unfold introLine
    rw [List.append_assoc]
    exact dropLit_exact _ _
  simp only [hdl]
  rw [show ("\" \x7b".toList : Str) = ('"' :: (' ' :: ['\x7b'])) from rfl]
  have hspan := span_exact (fun c => !(c = '"')) nm ('"' :: (' ' :: ['\x7b']))
    (by
      intro c hc
      simpa using h2 c hc)
    (by
      intro c hc
      injection hc with h
      subst h
      simp)
  rw [hspan.1, hspan.2, isEmpty_false_of_ne h1]
  simp only [Bool.false_eq_true, if_false]
  rw [if_pos (show isSpaceChar ' ' = true from by decide)]
  rw [show lstrip ['\x7b'] = ['\x7b'] from by decide]
  simp [lstrip]

/-- A well-formed identifier for the text format: nonempty word characters. -/
def goodId (s : Str) : Prop := s ≠ [] ∧ ∀ c ∈ s, isWordChar c = true

/-- An attribute value the format can round-trip: nonempty, quote-free,
bracket-free, comma-free, line-break-free. -/
def goodValue (v : Str) : Prop :=
  v ≠ [] ∧ ∀ c ∈ v, c ≠ '"' ∧ c ≠ ']' ∧ c ≠ ',' ∧ isLineBreak c = false

/-- A graph name the format can round-trip: nonempty, quote-free,
line-break-free. -/
def goodName (nm : Str) : Prop :=
  nm ≠ [] ∧ ∀ c ∈ nm, c ≠ '"' ∧ isLineBreak c = false

instance goodIdDec (s : Str) : Decidable (goodId s) :=
  inferInstanceAs (Decidable (s ≠ [] ∧ ∀ c ∈ s, isWordChar c = true))

instance goodValueDec (v : Str) : Decidable (goodValue v) :=
  inferInstanceAs (Decidable (v ≠ [] ∧ ∀ c ∈ v, c ≠ '"' ∧ c ≠ ']' ∧ c ≠ ',' ∧ isLineBreak c = false))

instance goodNameDec (nm : Str) : Decidable (goodName nm) :=
  inferInstanceAs (Decidable (nm ≠ [] ∧ ∀ c ∈ nm, c ≠ '"' ∧ isLineBreak c = false))

theorem mem_of_head? {l : Str} {c : Char} (h : l.head? = some c) : c ∈ l := by
  cases l with
  | nil => cases h
  | cons x xs =>
    injection h with h'
    subst h'
    exact List.mem_cons_self _ _

theorem head?_append_left {xs ys : Str} (h : xs ≠ []) : (xs ++ ys).head? = xs.head? := by
  cases xs with
  | nil => exact absurd rfl h
  | cons c cs => rfl

theorem word_ne_chars {c : Char} (h : isWordChar c = true) :
    c ≠ ']' ∧ c ≠ ',' ∧ c ≠ '"' ∧ c ≠ '=' ∧ c ≠ '[' ∧ c ≠ ';' ∧ c ≠ '-' ∧ c ≠ '\x7d' := by
  refine ⟨?_, ?_, ?_, ?_, ?_, ?_, ?_, ?_⟩ <;>
    · intro hx
      subst hx
      cases h

theorem renderAttr_chars (p : Str × Str) (hp : goodId p.1 ∧ goodValue p.2) :
    ∀ c ∈ renderAttr p, c ≠ ']' ∧ isLineBreak c = false ∧
      (c = ',' → False) ∧ isSpaceChar c = false ∨
      (c ∈ p.2 ∧ c ≠ ']' ∧ isLineBreak c = false ∧ c ≠ ',') := by
  intro c hc
  unfold renderAttr at hc
  rcases List.mem_append.mp hc with hc1 | hc2
  · rcases List.mem_append.mp hc1 with hc3 | hc4
    · rcases List.mem_append.mp hc3 with hc5 | hc6
      · obtain ⟨h1, h2, h3, -⟩ := word_ne_chars (hp.1.2 c hc5)
        exact Or.inl ⟨h1, word_not_break (hp.1.2 c hc5), fun hx => h2 hx,
          word_not_space (hp.1.2 c hc5)⟩
      · fin_cases hc6 <;> exact Or.inl ⟨by decide, by decide, by decide, by decide⟩
    · obtain ⟨-, h2, h3, h4⟩ := hp.2.2 c hc4
      exact Or.inr ⟨hc4, h2, h4, h3⟩
  · fin_cases hc2
    exact Or.inl ⟨by decide, by decide, by decide, by decide⟩

theorem renderAttr_no_comma (p : Str × Str) (hp : goodId p.1 ∧ goodValue p.2) :
    ∀ c ∈ renderAttr p, c ≠ ',' := by
  intro c hc
  rcases renderAttr_chars p hp c hc with ⟨-, -, h3, -⟩ | ⟨-, -, -, h4⟩
  · exact fun hx => h3 hx
  · exact h4

theorem renderAttr_no_bracket (p : Str × Str) (hp : goodId p.1 ∧ goodValue p.2) :
    ∀ c ∈ renderAttr p, c ≠ ']' := by
  intro c hc
  rcases renderAttr_chars p hp c hc with ⟨h1, -, -, -⟩ | ⟨-, h2, -, -⟩
  · exact h1
  · exact h2

theorem renderAttr_noBreak (p : Str × Str) (hp : goodId p.1 ∧ goodValue p.2) :
    ∀ c ∈ renderAttr p, isLineBreak c = false := by
  intro c hc
  rcases renderAttr_chars p hp c hc with ⟨-, h2, -, -⟩ | ⟨-, -, h3, -⟩
  · exact h2
  · exact h3

theorem renderAttr_head (p : Str × Str) (hp : goodId p.1 ∧ goodValue p.2) :
    ∀ c, (renderAttr p).head? = some c → isWordChar c = true := by
  intro c hc
  unfold renderAttr at hc
  rw [List.append_assoc, List.append_assoc, head?_append_left hp.1.1] at hc
  exact hp.1.2 c (mem_of_head? hc)

theorem renderAttr_last (p : Str × Str) :
    (renderAttr p).getLast? = some '"' := by
  unfold renderAttr
  exact List.getLast?_concat _

theorem renderAttr_ne_nil (p : Str × Str) (hp : goodId p.1 ∧ goodValue p.2) :
    renderAttr p ≠ [] := by
  unfold renderAttr
  intro hx
  cases hp.1.1 (List.append_eq_nil.mp (List.append_eq_nil.mp (List.append_eq_nil.mp hx).1).1).1

theorem renderAttrs_no_bracket (attrs : List (Str × Str))
    (h : ∀ p ∈ attrs, goodId p.1 ∧ goodValue p.2) :
    ∀ c ∈ renderAttrs attrs, c ≠ ']' := by
  intro c hc
  rcases mem_joinSep hc with hsep | ⟨l, hl, hcl⟩
  · rw [show (", ".toList : Str) = [',', ' '] from rfl] at hsep
    rcases List.mem_cons.mp hsep with rfl | hsep2
    · decide
    · rcases List.mem_cons.mp hsep2 with rfl | hsep3
      · decide
      · cases hsep3
  · obtain ⟨p, hp, rfl⟩ := List.mem_map.mp hl
    exact renderAttr_no_bracket p (h p hp) c hcl

theorem renderAttrs_noBreak (attrs : List (Str × Str))
    (h : ∀ p ∈ attrs, goodId p.1 ∧ goodValue p.2) :
    ∀ c ∈ renderAttrs attrs, isLineBreak c = false := by
  intro c hc
  rcases mem_joinSep hc with hsep | ⟨l, hl, hcl⟩
  · rw [show (", ".toList : Str) = [',', ' '] from rfl] at hsep
    rcases List.mem_cons.mp hsep with rfl | hsep2
    · decide
    · rcases List.mem_cons.mp hsep2 with rfl | hsep3
      · decide
      · cases hsep3
  · obtain ⟨p, hp, rfl⟩ := List.mem_map.mp hl
    exact renderAttr_noBreak p (h p hp) c hcl

theorem renderNode_form (n : Node) (hne : n.attributes ≠ []) :
    renderNode n =
      n.id ++ (' ' :: '[' :: ' ' :: (renderAttrs n.attributes ++ [' ', ']', ';'])) := by
  unfold renderNode
  rw [show n.attributes.isEmpty = false from isEmpty_false_of_ne hne]
  simp [List.append_assoc]

theorem edgeLine_form (a b : Str) :
    edgeLine a b = a ++ (' ' :: '-' :: '>' :: ' ' :: (b ++ [';'])) := by
  unfold edgeLine
  simp [List.append_assoc]

theorem renderNode_head (n : Node) (hid : goodId n.id) :
    ∀ c, (renderNode n).head? = some c → isWordChar c = true := by
  intro c hc
  unfold renderNode at hc
  rw [List.append_assoc, head?_append_left hid.1] at hc
  exact hid.2 c (mem_of_head? hc)

theorem renderNode_last (n : Node) : (renderNode n).getLast? = some ';' := by
  unfold renderNode
  exact List.getLast?_concat _

theorem renderNode_ne_nil (n : Node) (hid : goodId n.id) : renderNode n ≠ [] := by
  unfold renderNode
  intro hx
  exact hid.1 (List.append_eq_nil.mp (List.append_eq_nil.mp hx).1).1

theorem renderNode_strip (n : Node) (hid : goodId n.id) : strip (renderNode n) = renderNode n := by
  refine strip_eq_self _ ?_ ?_
  · intro c hc
    exact word_not_space (renderNode_head n hid c hc)
  · intro c hc
    rw [renderNode_last] at hc
    injection hc with h
    subst h
    decide

theorem renderNode_noBreak (n : Node) (hid : goodId n.id) (hne : n.attributes ≠ [])
    (hattrs : ∀ p ∈ n.attributes, goodId p.1 ∧ goodValue p.2) :
    ∀ c ∈ renderNode n, isLineBreak c = false := by
  intro c hc
  rw [renderNode_form n hne] at hc
  rcases List.mem_append.mp hc with hc1 | hc2
  · exact word_not_break (hid.2 c hc1)
  · rcases List.mem_cons.mp hc2 with rfl | hc3
    · decide
    · rcases List.mem_cons.mp hc3 with rfl | hc4
      · decide
      · rcases List.mem_cons.mp hc4 with rfl | hc5
        · decide
        · rcases List.mem_append.mp hc5 with hc6 | hc7
          · exact renderAttrs_noBreak n.attributes hattrs c hc6
          · rcases List.mem_cons.mp hc7 with rfl | hc8
            · decide
            · rcases List.mem_cons.mp hc8 with rfl | hc9
              · decide
              · rcases List.mem_cons.mp hc9 with rfl | hc10
                · decide
                · cases hc10

theorem edgeLine_head (a b : Str) (ha : goodId a) :
    ∀ c, (edgeLine a b).head? = some c → isWordChar c = true := by
  intro c hc
  rw [edgeLine_form, head?_append_left ha.1] at hc
  exact ha.2 c (mem_of_head? hc)

theorem edgeLine_last (a b : Str) : (edgeLine a b).getLast? = some ';' := by
  unfold edgeLine
  exact List.getLast?_concat _

theorem edgeLine_ne_nil (a b : Str) (ha : goodId a) : edgeLine a b ≠ [] := by
  rw [edgeLine_form]
  intro hx
  exact ha.1 (List.append_eq_nil.mp hx).1

theorem edgeLine_strip (a b : Str) (ha : goodId a) : strip (edgeLine a b) = edgeLine a b := by
  refine strip_eq_self _ ?_ ?_
  · intro c hc
    exact word_not_space (edgeLine_head a b ha c hc)
  · intro c hc
    rw [edgeLine_last] at hc
    injection hc with h
    subst h
    decide

theorem edgeLine_noBreak (a b : Str) (ha : goodId a) (hb : goodId b) :
    ∀ c ∈ edgeLine a b, isLineBreak c = false := by
  intro c hc
  rw [edgeLine_form] at hc
  rcases List.mem_append.mp hc with hc1 | hc2
  · exact word_not_break (ha.2 c hc1)
  · rcases List.mem_cons.mp hc2 with rfl | hc3
    · decide
    · rcases List.mem_cons.mp hc3 with rfl | hc4
      · decide
      · rcases List.mem_cons.mp hc4 with rfl | hc5
        · decide
        · rcases List.mem_cons.mp hc5 with rfl | hc6
          · decide
          · rcases List.mem_append.mp hc6 with hc7 | hc8
            · exact word_not_break (hb.2 c hc7)
            · rcases List.mem_cons.mp hc8 with rfl | hc9
              · decide
              · cases hc9

theorem parseNodeDefinition_render (n : Node) (hid : goodId n.id) (hne : n.attributes ≠ [])
    (hattrs : ∀ p ∈ n.attributes, goodId p.1 ∧ goodValue p.2) :
    parseNodeDefinition (renderNode n) =
      some (n.id, ' ' :: (renderAttrs n.attributes ++ [' '])) := by
  have hra : renderNode n = n.id ++ (' ' :: '[' :: ' ' ::
      ((renderAttrs n.attributes ++ [' ']) ++ (']' :: [';']))) := by
    rw [renderNode_form n hne]
    simp
  have hls : lstrip (n.id ++ (' ' :: '[' :: ' ' ::
      ((renderAttrs n.attributes ++ [' ']) ++ (']' :: [';'])))) =
      n.id ++ (' ' :: '[' :: ' ' :: ((renderAttrs n.attributes ++ [' ']) ++ (']' :: [';']))) :=
    dropWhile_eq_self_of_head _ (fun c hc => by
      rw [head?_append_left hid.1] at hc
      exact word_not_space (hid.2 c (mem_of_head? hc)))
  have hspan := span_exact isWordChar n.id (' ' :: '[' :: ' ' ::
      ((renderAttrs n.attributes ++ [' ']) ++ (']' :: [';']))) hid.2
    (fun c hc => by
      injection hc with h
      subst h
      decide)
  have hls2 : lstrip ('[' :: ' ' :: ((renderAttrs n.attributes ++ [' ']) ++ (']' :: [';']))) =
      '[' :: ' ' :: ((renderAttrs n.attributes ++ [' ']) ++ (']' :: [';'])) :=
    dropWhile_eq_self_of_head _ (fun c hc => by
      injection hc with h
      subst h
      decide)
  have hcontent := span_exact (fun c => !(c = ']')) (' ' :: (renderAttrs n.attributes ++ [' ']))
      (']' :: [';'])
    (by
      intro c hc
      rcases List.mem_cons.mp hc with rfl | hc2
      · decide
      · rcases List.mem_append.mp hc2 with hc3 | hc4
        · simpa using renderAttrs_no_bracket n.attributes hattrs c hc3
        · rcases List.mem_cons.mp hc4 with rfl | hc5
          · decide
          · cases hc5)
    (fun c hc => by
      injection hc with h
      subst h
      simp)
  have hcontent1 : (' ' :: ((renderAttrs n.attributes ++ [' ']) ++ (']' :: [';']))).takeWhile
      (fun c => !(c = ']')) = ' ' :: (renderAttrs n.attributes ++ [' ']) := hcontent.1
  have hcontent2 : (' ' :: ((renderAttrs n.attributes ++ [' ']) ++ (']' :: [';']))).dropWhile
      (fun c => !(c = ']')) = ']' :: [';'] := hcontent.2
  have hls3 : lstrip [';'] = [';'] := by decide
  have hsp : isSpaceChar ' ' = true := by decide
  rw [hra]
  unfold parseNodeDefinition
  simp only [hls, hspan.1, hspan.2, isEmpty_false_of_ne hid.1, Bool.false_eq_true, if_false,
    hsp, if_true, hls2, hcontent1, hcontent2, List.isEmpty_cons, hls3, lstrip_nil,
    List.isEmpty_nil]

theorem parseNodeDefinition_edgeLine (a b : Str) (ha : goodId a) :
    parseNodeDefinition (edgeLine a b) = none := by
  have hls : lstrip (a ++ (' ' :: '-' :: '>' :: ' ' :: (b ++ [';']))) =
      a ++ (' ' :: '-' :: '>' :: ' ' :: (b ++ [';'])) :=
    dropWhile_eq_self_of_head _ (fun c hc => by
      rw [head?_append_left ha.1] at hc
      exact word_not_space (ha.2 c (mem_of_head? hc)))
  have hspan := span_exact isWordChar a (' ' :: '-' :: '>' :: ' ' :: (b ++ [';'])) ha.2
    (fun c hc => by
      injection hc with h
      subst h
      decide)
  have hls2 : lstrip ('-' :: '>' :: ' ' :: (b ++ [';'])) =
      '-' :: '>' :: ' ' :: (b ++ [';']) :=
    dropWhile_eq_self_of_head _ (fun c hc => by
      injection hc with h
      subst h
      decide)
  have hsp : isSpaceChar ' ' = true := by decide
  rw [edgeLine_form]
  unfold parseNodeDefinition
  simp only [hls, hspan.1, hspan.2, isEmpty_false_of_ne ha.1, Bool.false_eq_true, if_false,
    hsp, if_true, hls2]
  rfl

theorem parseEdgeDefinition_render (a b : Str) (ha : goodId a) (hb : goodId b) :
    parseEdgeDefinition (edgeLine a b) = some (a, b) := by
  have hls : lstrip (a ++ (' ' :: '-' :: '>' :: ' ' :: (b ++ [';']))) =
      a ++ (' ' :: '-' :: '>' :: ' ' :: (b ++ [';'])) :=
    dropWhile_eq_self_of_head _ (fun c hc => by
      rw [head?_append_left ha.1] at hc
      exact word_not_space (ha.2 c (mem_of_head? hc)))
  have hspan := span_exact isWordChar a (' ' :: '-' :: '>' :: ' ' :: (b ++ [';'])) ha.2
    (fun c hc => by
      injection hc with h
      subst h
      decide)
  have hls2 : lstrip ('-' :: '>' :: ' ' :: (b ++ [';'])) =
      '-' :: '>' :: ' ' :: (b ++ [';']) :=
    dropWhile_eq_self_of_head _ (fun c hc => by
      injection hc with h
      subst h
      decide)
  have hls3 : lstrip (b ++ [';']) = b ++ [';'] :=
    dropWhile_eq_self_of_head _ (fun c hc => by
      rw [head?_append_left hb.1] at hc
      exact word_not_space (hb.2 c (mem_of_head? hc)))
  have hspanb := span_exact isWordChar b [';'] hb.2
    (fun c hc => by
      injection hc with h
      subst h
      decide)
  have hsp : isSpaceChar ' ' = true := by decide
  rw [edgeLine_form]
  unfold parseEdgeDefinition
  simp only [hls, hspan.1, hspan.2, isEmpty_false_of_ne ha.1, Bool.false_eq_true, if_false,
    hsp, if_true, hls2, hls3, hspanb.1, hspanb.2, isEmpty_false_of_ne hb.1, lstrip_nil,
    List.isEmpty_nil]

theorem matchAttribute_render (p : Str × Str) (hp : goodId p.1 ∧ goodValue p.2) :
    matchAttribute (renderAttr p) = some p := by
  have hform : renderAttr p = p.1 ++ ('=' :: '"' :: (p.2 ++ ['"'])) := by
    unfold renderAttr
    simp
  have hls : lstrip (p.1 ++ ('=' :: '"' :: (p.2 ++ ['"']))) =
      p.1 ++ ('=' :: '"' :: (p.2 ++ ['"'])) :=
    dropWhile_eq_self_of_head _ (fun c hc => by
      rw [head?_append_left hp.1.1] at hc
      exact word_not_space (hp.1.2 c (mem_of_head? hc)))
  have hspan := span_exact isWordChar p.1 ('=' :: '"' :: (p.2 ++ ['"'])) hp.1.2
    (fun c hc => by
      injection hc with h
      subst h
      decide)
  have hspanv := span_exact (fun c => !(c = '"')) p.2 ['"']
    (by
      intro c hc
      simpa using (hp.2.2 c hc).1)
    (fun c hc => by
      injection hc with h
      subst h
      simp)
  rw [hform]
  unfold matchAttribute
  simp only [hls, hspan.1, hspan.2, isEmpty_false_of_ne hp.1.1, Bool.false_eq_true, if_false,
    hspanv.1, hspanv.2, isEmpty_false_of_ne hp.2.1]

theorem parseNodeDefinition_closer : parseNodeDefinition ['\x7d'] = none := by decide

theorem parseEdgeDefinition_closer : parseEdgeDefinition ['\x7d'] = none := by decide

theorem parseCloser_closer : parseCloser ['\x7d'] = true := by decide

/-! ### Parser inversion: the attribute chunk pipeline -/

theorem splitComma_no_comma : ∀ xs : Str, (∀ c ∈ xs, c ≠ ',') → splitComma xs = [xs] := by
  intro xs
  induction xs with
  | nil => intro _; rfl
  | cons c cs ih =>
    intro h
    unfold splitComma
    rw [if_neg (h c (List.mem_cons_self _ _))]
    rw [ih (fun d hd => h d (List.mem_cons_of_mem _ hd))]

theorem splitComma_append : ∀ (xs ys : Str), (∀ c ∈ xs, c ≠ ',') →
    splitComma (xs ++ ',' :: ys) = xs :: splitComma ys := by
  intro xs
  induction xs with
  | nil =>
    intro ys _
    rw [List.nil_append]
    conv_lhs => rw [splitComma]
    rw [if_pos rfl]
  | cons c cs ih =>
    intro ys h
    rw [List.cons_append]
    conv_lhs => rw [splitComma]
    rw [if_neg (h c (List.mem_cons_self _ _))]
    rw [ih ys (fun d hd => h d (List.mem_cons_of_mem _ hd))]

/-- Splitting the emitted attribute text on commas, stripping and dropping
blanks recovers exactly the rendered attribute chunks. -/
theorem parts_join : ∀ (as : List Str),
    (∀ a ∈ as, (∀ c ∈ a, c ≠ ',') ∧ a ≠ [] ∧
      (∀ c, a.head? = some c → isSpaceChar c = false) ∧
      (∀ c, a.getLast? = some c → isSpaceChar c = false)) →
    ∀ a0 rest, as = a0 :: rest →
    ((splitComma (' ' :: (joinSep (", ".toList) as ++ [' ']))).map strip).filter
      (fun l => !l.isEmpty) = as := by
  intro as
  induction as with
  | nil => intro _ a0 rest h; cases h
  | cons a as' ih =>
    intro h a0 rest heq
    obtain ⟨hnc, hne, hh, hl⟩ := h a (List.mem_cons_self _ _)
    have hb : (!List.isEmpty a) = true := by
      cases a with
      | nil => exact absurd rfl hne
      | cons x xs => rfl
    cases as' with
    | nil =>
      have hjoin : joinSep (", ".toList) [a] = a := rfl
      rw [hjoin]
      rw [show (' ' :: (a ++ [' '])) = (' ' :: (a ++ [' '])) from rfl]
      rw [splitComma_no_comma (' ' :: (a ++ [' ']))
        (by
          intro c hc
          rcases List.mem_cons.mp hc with rfl | hc2
          · decide
          · rcases List.mem_append.mp hc2 with hc3 | hc4
            · exact hnc c hc3
            · rcases List.mem_cons.mp hc4 with rfl | hc5
              · decide
              · cases hc5)]
      rw [List.map_singleton]
      rw [show strip (' ' :: (a ++ [' '])) = a from by
        rw [show (' ' :: (a ++ [' '])) = [' '] ++ a ++ [' '] from by simp]
        exact strip_spaces_wrap [' '] a [' '] (by decide) (by decide) hh hl]
      rw [List.filter_singleton, hb, cond_true]
    | cons a₂ as'' =>
      have hjoin : joinSep (", ".toList) (a :: a₂ :: as'') =
          a ++ (',' :: ' ' :: joinSep (", ".toList) (a₂ :: as'')) := by
        show (a ++ ", ".toList) ++ joinSep (", ".toList) (a₂ :: as'') = _
        simp
      rw [hjoin]
      have hassoc : (' ' :: ((a ++ (',' :: ' ' :: joinSep (", ".toList) (a₂ :: as''))) ++ [' ']))
          = (' ' :: a) ++ ',' :: (' ' :: (joinSep (", ".toList) (a₂ :: as'') ++ [' '])) := by
        simp
      rw [hassoc]
      rw [splitComma_append (' ' :: a) _
        (by
          intro c hc
          rcases List.mem_cons.mp hc with rfl | hc2
          · decide
          · exact hnc c hc2)]
      rw [List.map_cons, List.filter_cons]
      rw [show strip (' ' :: a) = a from by
        rw [show (' ' :: a) = [' '] ++ a ++ [] from by simp]
        exact strip_spaces_wrap [' '] a [] (by decide) (by decide) hh hl]
      rw [if_pos hb]
      rw [ih (fun a' ha' => h a' (List.mem_cons_of_mem _ ha')) a₂ as'' rfl]

/-- Folding the rendered chunks of a duplicate-free attribute list rebuilds
exactly that list. -/
theorem parseAttrsAux_render : ∀ (ps : List (Str × Str)) (acc : List (Str × Str)),
    (∀ p ∈ ps, goodId p.1 ∧ goodValue p.2) →
    (∀ p ∈ ps, acc.any (fun q => q.1 == p.1) = false) →
    (ps.map Prod.fst).Nodup →
    parseAttrsAux acc (ps.map renderAttr) = .ok (acc ++ ps) := by
  intro ps
  induction ps with
  | nil =>
    intro acc _ _ _
    simp [parseAttrsAux]
  | cons p rest ih =>
    intro acc hgood hdisj hnodup
    rw [List.map_cons]
    unfold parseAttrsAux
    rw [matchAttribute_render p (hgood p (List.mem_cons_self _ _))]
    show parseAttrsAux (dictInsert p.1 p.2 acc) (rest.map renderAttr) = .ok (acc ++ p :: rest)
    have hins : dictInsert p.1 p.2 acc = acc ++ [p] := by
      unfold dictInsert
      rw [hdisj p (List.mem_cons_self _ _)]
      simp
    rw [hins]
    rw [ih (acc ++ [p])
      (fun q hq => hgood q (List.mem_cons_of_mem _ hq))
      (by
        intro q hq
        rw [List.any_append]
        have h1 : acc.any (fun r => r.1 == q.1) = false := hdisj q (List.mem_cons_of_mem _ hq)
        have h2 : (p.1 == q.1) = false := by
          rw [List.map_cons] at hnodup
          have := (List.nodup_cons.mp hnodup).1
          simp only [beq_eq_false_iff_ne, ne_eq]
          intro hx
          exact this (hx ▸ List.mem_map_of_mem Prod.fst hq)
        simp [h1, h2])
      (by
        rw [List.map_cons] at hnodup
        exact hnodup.tail)]
    simp

/-- `parseAttributes` inverts the emitter's attribute rendering. -/
theorem parseAttributes_render (attrs : List (Str × Str)) (hne : attrs ≠ [])
    (hgood : ∀ p ∈ attrs, goodId p.1 ∧ goodValue p.2)
    (hnodup : (attrs.map Prod.fst).Nodup) :
    parseAttributes (' ' :: (renderAttrs attrs ++ [' '])) = .ok attrs := by
  obtain ⟨p0, rest, rfl⟩ : ∃ p0 rest, attrs = p0 :: rest := by
    cases attrs with
    | nil => exact absurd rfl hne
    | cons p0 rest => exact ⟨p0, rest, rfl⟩
  unfold parseAttributes renderAttrs
  rw [parts_join ((p0 :: rest).map renderAttr)
    (by
      intro a ha
      obtain ⟨p, hp, rfl⟩ := List.mem_map.mp ha
      refine ⟨renderAttr_no_comma p (hgood p hp), renderAttr_ne_nil p (hgood p hp), ?_, ?_⟩
      · intro c hc
        exact word_not_space (renderAttr_head p (hgood p hp) c hc)
      · intro c hc
        rw [renderAttr_last] at hc
        injection hc with h
        subst h
        decide)
    (renderAttr p0) (rest.map renderAttr) (by rw [List.map_cons])]
  rw [show ((p0 :: rest).map renderAttr) = (p0 :: rest).map renderAttr from rfl]
  rw [parseAttrsAux_render (p0 :: rest) [] hgood (fun _ _ => rfl) hnodup]
  rw [List.nil_append]

/-! ### Parser inversion: statement scanning over a rendered body -/

theorem parseBody_closer (g : DirectedGraph) : parseBody g [['\x7d']] = .ok g := rfl

theorem map_eq_self_of {α : Type} (l : List α) (f : α → α) (h : ∀ x ∈ l, f x = x) :
    l.map f = l := by
  induction l with
  | nil => rfl
  | cons x xs ih =>
    rw [List.map_cons, h x (List.mem_cons_self _ _),
      ih (fun y hy => h y (List.mem_cons_of_mem _ hy))]

/-- The node-statement phase of the scan: each rendered node line adds the
node, with attributes but no edges yet, to the graph under construction. -/
theorem parseBody_nodes : ∀ (ns : List Node) (g : DirectedGraph) (rest : List Str),
    (∀ n ∈ ns, goodId n.id ∧ n.attributes ≠ [] ∧
      (∀ p ∈ n.attributes, goodId p.1 ∧ goodValue p.2) ∧
      (n.attributes.map Prod.fst).Nodup) →
    (∀ n ∈ ns, g.nodes.any (fun m => m.id == n.id) = false) →
    (ns.map Node.id).Nodup →
    parseBody g (ns.map renderNode ++ rest) =
      parseBody (DirectedGraph.mk g.name
        (g.nodes ++ ns.map (fun n => Node.mk n.id n.attributes []))) rest := by
  intro ns
  induction ns with
  | nil =>
    intro g rest _ _ _
    rw [List.map_nil, List.nil_append, List.map_nil, List.append_nil]
  | cons n ns' ih =>
    intro g rest hgood hfresh hnodup
    obtain ⟨hid, hne, hattrs, hkeys⟩ := hgood n (List.mem_cons_self _ _)
    rw [List.map_cons, List.cons_append]
    have hstep : parseBody g (renderNode n :: (ns'.map renderNode ++ rest)) =
        parseBody (g.addNode (Node.mk n.id n.attributes [])) (ns'.map renderNode ++ rest) := by
      simp only [parseBody, parseNodeDefinition_render n hid hne hattrs,
        parseAttributes_render n.attributes hne hattrs hkeys]
    rw [hstep]
    have hadd : g.addNode (Node.mk n.id n.attributes []) =
        DirectedGraph.mk g.name (g.nodes ++ [Node.mk n.id n.attributes []]) := by
      unfold DirectedGraph.addNode
      dsimp only
      rw [hfresh n (List.mem_cons_self _ _)]
      rfl
    rw [hadd]
    rw [ih (DirectedGraph.mk g.name (g.nodes ++ [Node.mk n.id n.attributes []])) rest
      (fun m hm => hgood m (List.mem_cons_of_mem _ hm))
      (by
        intro m hm
        dsimp only
        rw [List.any_append]
        have h1 := hfresh m (List.mem_cons_of_mem _ hm)
        have h2 : (n.id == m.id) = false := by
          simp only [beq_eq_false_iff_ne, ne_eq]
          intro hx
          rw [List.map_cons] at hnodup
          exact (List.nodup_cons.mp hnodup).1 (by rw [hx]; exact List.mem_map_of_mem Node.id hm)
        simp [h1, h2])
      (by
        rw [List.map_cons] at hnodup
        exact (List.nodup_cons.mp hnodup).2)]
    simp [List.append_assoc]

theorem addEdge_keeps_id (m : Node) (d : Str) : (m.addEdge d).id = m.id := by
  unfold Node.addEdge
  split <;> rfl

theorem foldl_addEdge_id : ∀ (ds : List Str) (m : Node),
    (List.foldl Node.addEdge m ds).id = m.id := by
  intro ds
  induction ds with
  | nil => intro m; rfl
  | cons d ds ih => intro m; rw [List.foldl_cons, ih, addEdge_keeps_id]

theorem getNode_of_any (g : DirectedGraph) (x : Str)
    (hx : g.nodes.any (fun m => m.id == x) = true) :
    ∃ nx, g.getNode x = some nx ∧ nx.id = x := by
  unfold DirectedGraph.getNode
  cases hfind : g.nodes.find? (fun s => s.id == x) with
  | some nx =>
    refine ⟨nx, rfl, ?_⟩
    have := List.find?_some hfind
    simpa using this
  | none =>
    rw [List.find?_eq_none] at hfind
    obtain ⟨m, hm, hma⟩ := List.any_eq_true.mp hx
    exact absurd hma (by simpa using hfind m hm)

/-- `addEdge` on a graph containing both endpoints: append the destination
id to the source node's edge set, in place. -/
theorem addEdge_present (g : DirectedGraph) (a d : Str)
    (ha : g.nodes.any (fun m => m.id == a) = true)
    (hd : g.nodes.any (fun m => m.id == d) = true) :
    g.addEdge a d = some (DirectedGraph.mk g.name
      (g.nodes.map (fun m => if m.id == a then m.addEdge d else m))) := by
  obtain ⟨n1, hg1, hid1⟩ := getNode_of_any g a ha
  obtain ⟨n2, hg2, hid2⟩ := getNode_of_any g d hd
  subst hid1
  subst hid2
  unfold DirectedGraph.addEdge
  rw [hg1, hg2]

theorem apply_ite_id (m : Node) (a d : Str) :
    (if m.id == a then m.addEdge d else m).id = m.id := by
  split
  · exact addEdge_keeps_id m d
  · rfl

theorem any_id_map_edge (ms : List Node) (a d x : Str) :
    (ms.map (fun m => if m.id == a then m.addEdge d else m)).any (fun m => m.id == x) =
      ms.any (fun m => m.id == x) := by
  induction ms with
  | nil => rfl
  | cons m ms ih =>
    rw [List.map_cons, List.any_cons, List.any_cons, ih, apply_ite_id]

/-- The scan over the edge statements of one source node: each line extends
the source's edge set by a set add. -/
theorem parseBody_edgeGroup : ∀ (ds : List Str) (g : DirectedGraph) (a : Str) (rest : List Str),
    goodId a →
    (∀ d ∈ ds, goodId d) →
    g.nodes.any (fun m => m.id == a) = true →
    (∀ d ∈ ds, g.nodes.any (fun m => m.id == d) = true) →
    parseBody g (ds.map (fun d => edgeLine a d) ++ rest) =
      parseBody (DirectedGraph.mk g.name
        (g.nodes.map (fun m => if m.id == a then List.foldl Node.addEdge m ds else m))) rest := by
  intro ds
  induction ds with
  | nil =>
    intro g a rest _ _ _ _
    rw [List.map_nil, List.nil_append]
    rw [map_eq_self_of g.nodes _ (fun m _ => by rw [List.foldl_nil, ite_self])]
  | cons d ds' ih =>
    intro g a rest ha hds hpa hpds
    rw [List.map_cons, List.cons_append]
    have hstep : parseBody g (edgeLine a d :: (ds'.map (fun d => edgeLine a d) ++ rest)) =
        parseBody (DirectedGraph.mk g.name
          (g.nodes.map (fun m => if m.id == a then m.addEdge d else m)))
          (ds'.map (fun d => edgeLine a d) ++ rest) := by
      simp only [parseBody, parseNodeDefinition_edgeLine a d ha,
        parseEdgeDefinition_render a d ha (hds d (List.mem_cons_self _ _)),
        addEdge_present g a d hpa (hpds d (List.mem_cons_self _ _))]
    rw [hstep]
    rw [ih (DirectedGraph.mk g.name (g.nodes.map (fun m => if m.id == a then m.addEdge d else m)))
      a rest ha (fun d' hd' => hds d' (List.mem_cons_of_mem _ hd'))
      (by dsimp only; rw [any_id_map_edge]; exact hpa)
      (fun d' hd' => by dsimp only; rw [any_id_map_edge]; exact hpds d' (List.mem_cons_of_mem _ hd'))]
    have hmap : (g.nodes.map (fun m => if m.id == a then m.addEdge d else m)).map
        (fun m => if m.id == a then List.foldl Node.addEdge m ds' else m) =
        g.nodes.map (fun m => if m.id == a then List.foldl Node.addEdge m (d :: ds') else m) := by
      rw [List.map_map]
      apply List.map_congr_left
      intro m _
      show (if (if m.id == a then m.addEdge d else m).id == a then
          List.foldl Node.addEdge (if m.id == a then m.addEdge d else m) ds'
        else (if m.id == a then m.addEdge d else m)) = _
      cases hm : (m.id == a) with
      | true =>
        simp only [hm, if_true, addEdge_keeps_id, List.foldl_cons]
      | false =>
        simp only [hm, Bool.false_eq_true, if_false]
    rw [hmap]

theorem find?_cons_pos {α : Type} (p : α → Bool) (a : α) (l : List α) (h : p a = true) :
    (a :: l).find? p = some a := by
  simp [List.find?, h]

theorem find?_cons_neg {α : Type} (p : α → Bool) (a : α) (l : List α) (h : p a = false) :
    (a :: l).find? p = l.find? p := by
  simp [List.find?, h]

theorem any_id_map_group (ms : List Node) (a : Str) (ds : List Str) (x : Str) :
    (ms.map (fun m => if m.id == a then List.foldl Node.addEdge m ds else m)).any
        (fun m => m.id == x) =
      ms.any (fun m => m.id == x) := by
  induction ms with
  | nil => rfl
  | cons m ms ih =>
    rw [List.map_cons, List.any_cons, List.any_cons, ih]
    cases hm : (m.id == a) with
    | true => simp only [hm, if_true, foldl_addEdge_id]
    | false => simp only [hm, Bool.false_eq_true, if_false]

/-- The edge-statement phase of the scan: the emitted edge lines, grouped
by source in node order, restore every source node's edge set. -/
theorem parseBody_allEdges : ∀ (ns : List Node) (g : DirectedGraph) (rest : List Str),
    (∀ n ∈ ns, goodId n.id) →
    (∀ n ∈ ns, ∀ d ∈ n.edges, goodId d ∧ g.nodes.any (fun m => m.id == d) = true) →
    (∀ n ∈ ns, g.nodes.any (fun m => m.id == n.id) = true) →
    (ns.map Node.id).Nodup →
    parseBody g (edgeLinesOf ns ++ rest) =
      parseBody (DirectedGraph.mk g.name (g.nodes.map (fun m =>
        match ns.find? (fun n => n.id == m.id) with
        | some n => List.foldl Node.addEdge m n.edges
        | none => m))) rest := by
  intro ns
  induction ns with
  | nil =>
    intro g rest _ _ _ _
    rw [show edgeLinesOf [] = ([] : List Str) from rfl, List.nil_append]
    rw [map_eq_self_of g.nodes
      (fun m => match List.find? (fun n => n.id == m.id) ([] : List Node) with
        | some n => List.foldl Node.addEdge m n.edges
        | none => m)
      (fun m _ => rfl)]
  | cons n ns' ih =>
    intro g rest hids hedges hpres hnodup
    rw [show edgeLinesOf (n :: ns') =
        n.edges.map (fun d => edgeLine n.id d) ++ edgeLinesOf ns' from by
      simp [edgeLinesOf]]
    rw [List.append_assoc]
    rw [parseBody_edgeGroup n.edges g n.id (edgeLinesOf ns' ++ rest)
      (hids n (List.mem_cons_self _ _))
      (fun d hd => (hedges n (List.mem_cons_self _ _) d hd).1)
      (hpres n (List.mem_cons_self _ _))
      (fun d hd => (hedges n (List.mem_cons_self _ _) d hd).2)]
    have htrans : ∀ x : Str,
        ((g.nodes.map (fun m => if m.id == n.id then List.foldl Node.addEdge m n.edges else m)).any
          (fun m => m.id == x)) = g.nodes.any (fun m => m.id == x) :=
      fun x => any_id_map_group g.nodes n.id n.edges x
    rw [ih (DirectedGraph.mk g.name
        (g.nodes.map (fun m => if m.id == n.id then List.foldl Node.addEdge m n.edges else m)))
      rest
      (fun m hm => hids m (List.mem_cons_of_mem _ hm))
      (fun m hm d hd => ⟨(hedges m (List.mem_cons_of_mem _ hm) d hd).1,
        (htrans d).trans (hedges m (List.mem_cons_of_mem _ hm) d hd).2⟩)
      (fun m hm => (htrans m.id).trans (hpres m (List.mem_cons_of_mem _ hm)))
      (by rw [List.map_cons] at hnodup; exact (List.nodup_cons.mp hnodup).2)]
    have hmap : (g.nodes.map
          (fun m => if m.id == n.id then List.foldl Node.addEdge m n.edges else m)).map
        (fun m => match ns'.find? (fun n' => n'.id == m.id) with
          | some n' => List.foldl Node.addEdge m n'.edges
          | none => m) =
        g.nodes.map (fun m => match (n :: ns').find? (fun n' => n'.id == m.id) with
          | some n' => List.foldl Node.addEdge m n'.edges
          | none => m) := by
      rw [List.map_map]
      apply List.map_congr_left
      intro m _
      show (match ns'.find? (fun n' => n'.id ==
          (if m.id == n.id then List.foldl Node.addEdge m n.edges else m).id) with
        | some n' => List.foldl Node.addEdge
            (if m.id == n.id then List.foldl Node.addEdge m n.edges else m) n'.edges
        | none => (if m.id == n.id then List.foldl Node.addEdge m n.edges else m)) = _
      cases hm : (m.id == n.id) with
      | true =>
        have hmid : m.id = n.id := by simpa using hm
        have hfind : ns'.find? (fun n' => n'.id == m.id) = none := by
          rw [List.find?_eq_none]
          intro n' hn'
          simp only [beq_eq_false_iff_ne, ne_eq, Bool.not_eq_true]
          intro hx
          rw [List.map_cons] at hnodup
          exact (List.nodup_cons.mp hnodup).1
            (by rw [← hmid, ← hx]; exact List.mem_map_of_mem Node.id hn')
        simp only [hm, if_true, foldl_addEdge_id, hfind]
        rw [find?_cons_pos (fun n' => n'.id == m.id) n ns'
          (by show (n.id == m.id) = true; rw [← hmid]; simp)]
      | false =>
        have hsym : (n.id == m.id) = false := by
          simp only [beq_eq_false_iff_ne, ne_eq] at hm ⊢
          exact fun hx => hm hx.symm
        simp only [hm, Bool.false_eq_true, if_false]
        rw [find?_cons_neg (fun n' => n'.id == m.id) n ns' hsym]
    rw [hmap]

/-- Folding set-adds of fresh destinations appends them in order. -/
theorem foldl_addEdge_fresh : ∀ (ds : List Str) (m : Node), (m.edges ++ ds).Nodup →
    List.foldl Node.addEdge m ds = Node.mk m.id m.attributes (m.edges ++ ds) := by
  intro ds
  induction ds with
  | nil =>
    intro m _
    rw [List.foldl_nil, List.append_nil]
  | cons d ds ih =>
    intro m hnd
    rw [List.foldl_cons]
    have hc : m.edges.contains d = false := by
      cases hcc : m.edges.contains d with
      | false => rfl
      | true =>
        exfalso
        have hd : d ∈ m.edges := by simpa using hcc
        exact (List.nodup_append.mp hnd).2.2 hd (List.mem_cons_self _ _)
    have hmd : m.addEdge d = Node.mk m.id m.attributes (m.edges ++ [d]) := by
      unfold Node.addEdge
      rw [hc]
      rfl
    rw [hmd]
    rw [ih (Node.mk m.id m.attributes (m.edges ++ [d]))
      (by rw [show (Node.mk m.id m.attributes (m.edges ++ [d])).edges = m.edges ++ [d] from rfl,
            List.append_assoc]
          exact hnd)]
    rw [List.append_assoc]
    rfl

theorem find?_id_self : ∀ (ns : List Node), (ns.map Node.id).Nodup →
    ∀ n ∈ ns, ns.find? (fun n' => n'.id == n.id) = some n := by
  intro ns
  induction ns with
  | nil => intro _ n hn; cases hn
  | cons m ms ih =>
    intro hnodup n hn
    rcases List.mem_cons.mp hn with rfl | hn'
    · exact find?_cons_pos (fun n' => n'.id == n.id) n ms (by simp)
    · have hne : (m.id == n.id) = false := by
        simp only [beq_eq_false_iff_ne, ne_eq]
        intro hx
        rw [List.map_cons] at hnodup
        exact (List.nodup_cons.mp hnodup).1 (hx ▸ List.mem_map_of_mem Node.id hn')
      rw [find?_cons_neg (fun n' => n'.id == n.id) m ms hne]
      exact ih (by rw [List.map_cons] at hnodup; exact (List.nodup_cons.mp hnodup).2) n hn'

/-- The edge phase applied to the freshly added edge-less nodes rebuilds the
original node list. -/
theorem rebuild_nodes (ns : List Node) (hnodup : (ns.map Node.id).Nodup)
    (hedges : ∀ n ∈ ns, n.edges.Nodup) :
    (ns.map (fun n => Node.mk n.id n.attributes [])).map (fun m =>
      match ns.find? (fun n => n.id == m.id) with
      | some n => List.foldl Node.addEdge m n.edges
      | none => m) = ns := by
  rw [List.map_map]
  apply map_eq_self_of
  intro n hn
  show (match ns.find? (fun n' => n'.id == n.id) with
    | some n' => List.foldl Node.addEdge (Node.mk n.id n.attributes []) n'.edges
    | none => Node.mk n.id n.attributes []) = n
  rw [find?_id_self ns hnodup n hn]
  show List.foldl Node.addEdge (Node.mk n.id n.attributes []) n.edges = n
  rw [foldl_addEdge_fresh n.edges (Node.mk n.id n.attributes []) (hedges n hn)]
  rfl

theorem any_id_mk (ns : List Node) (x : Str) :
    ((ns.map (fun n => Node.mk n.id n.attributes [])).any (fun m => m.id == x)) =
      ns.any (fun n => n.id == x) := by
  induction ns with
  | nil => rfl
  | cons n ns ih => rw [List.map_cons, List.any_cons, List.any_cons, ih]

/-- Parsing a rendered text reconstructs the graph: the name is re-wrapped
as rendered, the nodes come back exactly.  (A parser fact about the
rendered shape; the program's own serializer never produces this text —
see `c1_toDot_always_raises`.) -/
theorem parse_emitBody_ok (g : DirectedGraph)
    (hname : goodName (renderName g.name))
    (hnodup : (g.nodes.map Node.id).Nodup)
    (hnodes : ∀ n ∈ g.nodes, goodId n.id ∧ n.attributes ≠ [] ∧
      (∀ p ∈ n.attributes, goodId p.1 ∧ goodValue p.2) ∧
      (n.attributes.map Prod.fst).Nodup ∧ n.edges.Nodup ∧
      (∀ d ∈ n.edges, g.nodes.any (fun m => m.id == d) = true)) :
    DotReader.parse (emitBody (renderName g.name)
        (g.nodes.map renderNode) (edgeLinesOf g.nodes)) =
      .ok (DirectedGraph.mk (some (renderName g.name)) g.nodes) := by
  have hgoodTarget : ∀ x : Str, g.nodes.any (fun m => m.id == x) = true → goodId x := by
    intro x hx
    obtain ⟨m, hm, hmx⟩ := List.any_eq_true.mp hx
    have hmx2 : m.id = x := by simpa using hmx
    exact hmx2 ▸ (hnodes m hm).1
  have hlines : parseLines (emitBody (renderName g.name)
      (g.nodes.map renderNode) (edgeLinesOf g.nodes)) =
      introLine (renderName g.name) ::
        (g.nodes.map renderNode ++ edgeLinesOf g.nodes ++ [['\x7d']]) := by
    apply parseLines_emitBody
    · exact fun c hc => (hname.2 c hc).2
    · intro l hl
      obtain ⟨n, hn, rfl⟩ := List.mem_map.mp hl
      exact renderNode_noBreak n (hnodes n hn).1 (hnodes n hn).2.1 (hnodes n hn).2.2.1
    · intro l hl
      obtain ⟨n, hn, hl2⟩ := List.mem_flatMap.mp hl
      obtain ⟨d, hd, rfl⟩ := List.mem_map.mp hl2
      exact edgeLine_noBreak n.id d (hnodes n hn).1
        (hgoodTarget d ((hnodes n hn).2.2.2.2.2 d hd))
    · intro l hl
      obtain ⟨n, hn, rfl⟩ := List.mem_map.mp hl
      exact ⟨renderNode_strip n (hnodes n hn).1, renderNode_ne_nil n (hnodes n hn).1⟩
    · intro l hl
      obtain ⟨n, hn, hl2⟩ := List.mem_flatMap.mp hl
      obtain ⟨d, hd, rfl⟩ := List.mem_map.mp hl2
      exact ⟨edgeLine_strip n.id d (hnodes n hn).1, edgeLine_ne_nil n.id d (hnodes n hn).1⟩
  have hintro : parseIntroducer (introLine (renderName g.name)) = some (renderName g.name) :=
    parseIntroducer_render (renderName g.name) hname.1 (fun c hc => (hname.2 c hc).1)
  unfold DotReader.parse
  rw [hlines]
  simp only [hintro]
  show parseBody (DirectedGraph.mk (some (renderName g.name)) [])
      (g.nodes.map renderNode ++ edgeLinesOf g.nodes ++ [['\x7d']]) = _
  rw [List.append_assoc]
  rw [parseBody_nodes g.nodes (DirectedGraph.mk (some (renderName g.name)) [])
      (edgeLinesOf g.nodes ++ [['\x7d']])
      (fun n hn => ⟨(hnodes n hn).1, (hnodes n hn).2.1, (hnodes n hn).2.2.1,
        (hnodes n hn).2.2.2.1⟩)
      (fun n hn => rfl)
      hnodup]
  show parseBody (DirectedGraph.mk (some (renderName g.name))
      (g.nodes.map (fun n => Node.mk n.id n.attributes [])))
    (edgeLinesOf g.nodes ++ [['\x7d']]) = _
  rw [parseBody_allEdges g.nodes
      (DirectedGraph.mk (some (renderName g.name))
        (g.nodes.map (fun n => Node.mk n.id n.attributes [])))
      [['\x7d']]
      (fun n hn => (hnodes n hn).1)
      (fun n hn d hd => ⟨hgoodTarget d ((hnodes n hn).2.2.2.2.2 d hd),
        (any_id_mk g.nodes d).trans ((hnodes n hn).2.2.2.2.2 d hd)⟩)
      (fun n hn => (any_id_mk g.nodes n.id).trans
        (List.any_eq_true.mpr ⟨n, hn, by simp⟩))
      hnodup]
  show parseBody (DirectedGraph.mk (some (renderName g.name))
      ((g.nodes.map (fun n => Node.mk n.id n.attributes [])).map (fun m =>
        match g.nodes.find? (fun n => n.id == m.id) with
        | some n => List.foldl Node.addEdge m n.edges
        | none => m))) [['\x7d']] = _
  rw [rebuild_nodes g.nodes hnodup (fun n hn => (hnodes n hn).2.2.2.2.1)]
  exact parseBody_closer _

/-! ### C1: serialization under Python 3 -/

/-- Counterexample to C1 as stated: even a one-node graph with unique ids
and an empty attribute map — for which `addNode` succeeds — gets no
serialized text: `emit` raises `AttributeError` calling `.sort()` on the
`dict_keys` view, so `toDot` fails, the round trip cannot even start, and
no text equality can hold. -/
theorem c1_counterexample :
    (gBare.nodes.map Node.id).Nodup ∧
    gBare.toDot = Except.error EmitError.keysSortAttributeError := by decide

/-- C1 (amended): serialization never completes under Python 3 — for every
graph, `toDot` raises.  A node with a nonempty attribute map raises
`AttributeError` at `attributes.iteritems()` in `addNode`; a repeated node
id fails the emitter's assert; and any run that survives the node loop
raises `AttributeError` at `dict_keys.sort()` in `emit`.  No text is ever
produced, so no graph satisfies the claimed round-trip identity. -/
theorem c1_toDot_always_raises (g : DirectedGraph) :
    ∃ e, g.toDot = Except.error e := by
  unfold DirectedGraph.toDot
  cases h : toDotAux (DotEmitter.mk g.name [] []) g.nodes with
  | error err => exact ⟨err, rfl⟩
  | ok e => exact ⟨EmitError.keysSortAttributeError, rfl⟩

/-- Instance of `c1_toDot_always_raises` at a concrete input. -/
theorem c1_witness : ∃ e, gBare.toDot = Except.error e :=
  c1_toDot_always_raises gBare
